import Mathlib

/-!
Verification of the network extraction and canonicalization pipeline
(`01_get_osm_network.py`): vertex selection, edge segmentation, per-direction
attribute resolution, strongly-connected-component filtering, duplicate
resolution and speed imputation.

Modelling conventions:
* Python floats are modelled as exact rationals.  Because the library
  rational type's arithmetic is irreducible (so concrete runs could not be
  evaluated inside proofs), we use an explicit numerator/denominator pair
  type `Q` with executable exact arithmetic.  Value comparison (`==`, `<`)
  cross-multiplies; `0.0` is any value with zero numerator.  Division by a
  zero value yields a zero denominator (the pipeline never compares such
  values in any claim considered here).
* Python dicts keyed by node id are modelled as insertion-ordered
  association lists; Python sets of node refs as duplicate-free lists.
* `float(...)`/`int(...)` parsing is modelled on plain decimal literals
  (optional sign, digits, optionally a decimal dot for floats); exotic
  accepted forms (exponents, underscores, inf/nan) are not modelled, and
  none of them occurs in the claims.
* The geodesic distance (external `haversine` library) is an abstract
  parameter `dist`; the land-use containment test (external `shapely`
  prepared geometry) is an abstract parameter `contains`.
-/

/-- Exact rational value of a Python float: numerator and denominator
(denominator positive for every value the pipeline actually builds;
a zero denominator can only arise from dividing by a zero value). -/
structure Q where
  num : Int
  den : Nat
deriving DecidableEq, Repr

instance : OfNat Q n := ⟨⟨n, 1⟩⟩

/-- Exact addition. -/
def Q.add (a b : Q) : Q := ⟨a.num * b.den + b.num * a.den, a.den * b.den⟩

instance : Add Q := ⟨Q.add⟩

/-- Exact multiplication. -/
def Q.mul (a b : Q) : Q := ⟨a.num * b.num, a.den * b.den⟩

instance : Mul Q := ⟨Q.mul⟩

/-- Negation. -/
def Q.neg (a : Q) : Q := ⟨-a.num, a.den⟩

instance : Neg Q := ⟨Q.neg⟩

/-- Exact division; dividing by a zero value yields a zero denominator. -/
def Q.div (a b : Q) : Q :=
  ⟨(if b.num < 0 then -(a.num * b.den) else a.num * b.den), a.den * b.num.natAbs⟩

instance : Div Q := ⟨Q.div⟩

/-- Value order by cross-multiplication. -/
def Q.lt (a b : Q) : Prop := a.num * b.den < b.num * a.den

instance : LT Q := ⟨Q.lt⟩

instance : DecidableRel (fun a b : Q => a < b) := fun a b =>
  inferInstanceAs (Decidable (a.num * b.den < b.num * a.den))

/-- Value order by cross-multiplication. -/
def Q.le (a b : Q) : Prop := a.num * b.den ≤ b.num * a.den

instance : LE Q := ⟨Q.le⟩

instance : DecidableRel (fun a b : Q => a ≤ b) := fun a b =>
  inferInstanceAs (Decidable (a.num * b.den ≤ b.num * a.den))

/-- Python `==` on float values (value equality, not representation equality). -/
def Q.valEq (a b : Q) : Bool := a.num * b.den == b.num * a.den

/-- Numeric value of a digit string. -/
def digitsVal (s : List Char) : Nat :=
  s.foldl (fun a c => a * 10 + (c.toNat - '0'.toNat)) 0

/-- The Python built-in `float(...)` on plain decimal literals:
optional sign, then digits with at most one decimal dot and at least one
digit; every other string raises `ValueError`, modelled as `none`. -/
def pyFloat (s : String) : Option Q :=
  let cs := s.toList
  let sgnNeg : Bool := cs.head? = some '-'
  let cs := if cs.head? = some '-' ∨ cs.head? = some '+' then cs.drop 1 else cs
  let intPart := cs.takeWhile Char.isDigit
  let rest := cs.dropWhile Char.isDigit
  match rest with
  | [] =>
    if intPart.isEmpty then none
    else some ⟨(if sgnNeg then -(digitsVal intPart : Int) else (digitsVal intPart : Int)), 1⟩
  | '.' :: frac =>
    if frac.all Char.isDigit ∧ ¬ (intPart.isEmpty ∧ frac.isEmpty) then
      let n : Int := (digitsVal intPart * 10 ^ frac.length + digitsVal frac : Nat)
      some ⟨(if sgnNeg then -n else n), 10 ^ frac.length⟩
    else none
  | _ => none

/-- The Python built-in `int(...)` on plain decimal literals: optional sign
then at least one digit; every other string raises `ValueError` (`none`). -/
def pyInt (s : String) : Option Int :=
  let cs := s.toList
  let sgnNeg : Bool := cs.head? = some '-'
  let cs := if cs.head? = some '-' ∨ cs.head? = some '+' then cs.drop 1 else cs
  if cs.isEmpty ∨ ¬ cs.all Char.isDigit then none
  else some (if sgnNeg then -(digitsVal cs : Int) else (digitsVal cs : Int))

/-- A tag mapping (`way.tags` / `area.tags`): an association list of
string keys and values. -/
abbrev Tags := List (String × String)

/-- `tags.get(key)`: the first binding of `key`, if any. -/
def tagsFind (tags : Tags) (k : String) : Option String :=
  (List.find? (fun p => p.1 == k) tags).map (fun p => p.2)

/-- `tags.get(key, dflt)`. -/
def tagsGet (tags : Tags) (k dflt : String) : String :=
  (tagsFind tags k).getD dflt

/-- `VALID_HIGHWAYS` from the source configuration. -/
def VALID_HIGHWAYS : List String :=
  ["motorway", "trunk", "primary", "secondary", "motorway_link", "trunk_link",
   "primary_link", "secondary_link", "tertiary", "tertiary_link",
   "living_street", "unclassified", "residential"]

/-- `MAIN_HIGHWAYS` from the source configuration. -/
def MAIN_HIGHWAYS : List String :=
  ["motorway", "trunk", "primary", "secondary", "motorway_link", "trunk_link",
   "primary_link", "secondary_link", "tertiary", "tertiary_link"]

/-- `OD_FORBIDDEN` from the source configuration. -/
def OD_FORBIDDEN : List String :=
  ["motorway", "trunk", "motorway_link", "trunk_link"]

/-- `ROADTYPE_TO_ID` from the source configuration. -/
def ROADTYPE_TO_ID : List (String × Nat) :=
  [("motorway", 1), ("trunk", 2), ("primary", 3), ("secondary", 4),
   ("tertiary", 5), ("motorway_link", 6), ("trunk_link", 7),
   ("primary_link", 8), ("secondary_link", 9), ("tertiary_link", 10),
   ("living_street", 11), ("unclassified", 12), ("residential", 13),
   ("road", 14), ("service", 15)]

/-- `ROADTYPE_TO_ID[h]`; the `KeyError` case cannot be reached from a valid
way and is mapped to 0. -/
def roadTypeId (h : String) : Nat :=
  ((List.find? (fun p => p.1 == h) ROADTYPE_TO_ID).map (fun p => p.2)).getD 0

/-- `DEFAULT_LANES` from the source configuration. -/
def DEFAULT_LANES : List (String × Int) :=
  [("motorway", 2), ("trunk", 2), ("primary", 1), ("secondary", 1),
   ("tertiary", 1), ("unclassified", 1), ("residential", 1),
   ("motorway_link", 1), ("trunk_link", 1), ("primary_link", 1),
   ("secondary_link", 1), ("tertiary_link", 1), ("living_street", 1),
   ("road", 1), ("service", 1)]

/-- `DEFAULT_LANES.get(road_type, 1)`. -/
def defaultLanesOf (h : String) : Int :=
  ((List.find? (fun p => p.1 == h) DEFAULT_LANES).map (fun p => p.2)).getD 1

/-- `DEFAULT_SPEED_RURAL` from the source configuration (km/h). -/
def DEFAULT_SPEED_RURAL : List (String × Q) :=
  [("motorway", 130), ("trunk", 110), ("primary", 80), ("secondary", 80),
   ("tertiary", 80), ("unclassified", 20), ("residential", 30),
   ("motorway_link", 90), ("trunk_link", 70), ("primary_link", 50),
   ("secondary_link", 50), ("tertiary_link", 50), ("living_street", 20),
   ("road", 20), ("service", 20)]

/-- `DEFAULT_SPEED_URBAN` from the source configuration (km/h). -/
def DEFAULT_SPEED_URBAN : List (String × Q) :=
  [("motorway", 130), ("trunk", 110), ("primary", 50), ("secondary", 50),
   ("tertiary", 50), ("unclassified", 20), ("residential", 30),
   ("motorway_link", 90), ("trunk_link", 70), ("primary_link", 50),
   ("secondary_link", 50), ("tertiary_link", 50), ("living_street", 20),
   ("road", 20), ("service", 20)]

/-- `CAPACITY` from the source configuration (PCE/hour). -/
def CAPACITY : List (String × Nat) :=
  [("motorway", 2000), ("trunk", 2000), ("primary", 1500), ("secondary", 800),
   ("motorway_link", 1500), ("trunk_link", 1500), ("primary_link", 1500),
   ("secondary_link", 800), ("tertiary", 600), ("tertiary_link", 600),
   ("living_street", 300), ("unclassified", 600), ("residential", 600),
   ("road", 300), ("service", 300)]

/-- `CAPACITY.get(road_type)`: `none` when the class has no defined capacity. -/
def capacityOf (h : String) : Option Nat :=
  (List.find? (fun p => p.1 == h) CAPACITY).map (fun p => p.2)

/-- `URBAN_LANDUSE` from the source configuration. -/
def URBAN_LANDUSE : List String :=
  ["commercial", "construction", "education", "industrial", "residential",
   "retail", "village_green", "recreation_ground", "military", "garages",
   "religious"]

/-- The rural default speed table keyed by road-type id, as built by
`post_process` (the name-keyed table mapped through `ROADTYPE_TO_ID`). -/
def ruralSpeedOfId (rt : Nat) : Option Q :=
  ((DEFAULT_SPEED_RURAL.map (fun p => (roadTypeId p.1, p.2))).find?
    (fun p => p.1 == rt)).map (fun p => p.2)

/-- The urban default speed table keyed by road-type id, as built by
`post_process`. -/
def urbanSpeedOfId (rt : Nat) : Option Q :=
  ((DEFAULT_SPEED_URBAN.map (fun p => (roadTypeId p.1, p.2))).find?
    (fun p => p.1 == rt)).map (fun p => p.2)

/-- A decoded node reference of a way: source-native id, coordinate
validity flag and coordinates (`way.nodes[i]` with its location). -/
structure OsmNode where
  ref : Nat
  valid : Bool
  lon : Q
  lat : Q
deriving DecidableEq, Repr

/-- A decoded way record: id, ordered node references, tag mapping. -/
structure Way where
  id : Nat
  nodes : List OsmNode
  tags : Tags
deriving DecidableEq

/-- `valid_way` from the source: access absent or "yes", more than one
point, and a highway tag in the valid set. -/
def valid_way (w : Way) : Bool :=
  let has_access := match tagsFind w.tags "access" with
    | none => true
    | some v => v == "yes"
  has_access && decide (1 < w.nodes.length) &&
    (match tagsFind w.tags "highway" with
     | none => false
     | some h => VALID_HIGHWAYS.contains h)

/-- A decoded land-use polygon record: tag mapping and outer ring count. -/
structure Area where
  tags : Tags
  outer_rings : Nat
deriving DecidableEq

/-- `is_urban_area` from the source: urban land-use tag and at least one
outer ring. -/
def is_urban_area (a : Area) : Bool :=
  (match tagsFind a.tags "landuse" with
   | none => false
   | some v => URBAN_LANDUSE.contains v) && decide (0 < a.outer_rings)

/-- `UrbanAreasReader`: the list of qualifying polygons collected by the
area handler. -/
def collectUrbanAreas (areas : List Area) : List Area :=
  areas.filter is_urban_area

/-- Modelled from the spec: the union of zero qualifying polygons is the
empty region, and point-containment against the empty region is constantly
false.  (The union/buffer themselves live in the external geometry
libraries, outside the sources verified here.) -/
def emptyRegion : List (Q × Q) → Bool := fun _ => false

/-- A selected graph vertex (the feature stored in `NodeReader.nodes`):
dense id, source-native id, coordinates. -/
structure Vertex where
  id : Nat
  osm_id : Nat
  lon : Q
  lat : Q
deriving DecidableEq, Repr

/-- The state of `NodeReader`: the set of already-explored refs
(`all_nodes`), the selected-vertex dict in insertion order (`nodes`) and
the dense id counter. -/
structure NodeReaderState where
  all_nodes : List Nat
  nodes : List Vertex
  counter : Nat
deriving DecidableEq, Repr

/-- Membership in the explored-refs set. -/
def refMem (l : List Nat) (r : Nat) : Bool := l.contains r

/-- Adding to the explored-refs set. -/
def refInsert (l : List Nat) (r : Nat) : List Nat :=
  if l.contains r then l else l ++ [r]

/-- `NodeReader.add_node`: select the node unless already selected or its
location is invalid; ids are assigned densely in selection order. -/
def add_node (st : NodeReaderState) (n : OsmNode) : NodeReaderState :=
  if st.nodes.any (fun v => v.osm_id == n.ref) then st
  else if n.valid then
    { st with
      nodes := st.nodes ++ [{ id := st.counter, osm_id := n.ref, lon := n.lon, lat := n.lat }],
      counter := st.counter + 1 }
  else st

/-- `NodeReader.handle_way`: always select both endpoints, then select an
interior point exactly when its ref was already explored. -/
def handle_way (st : NodeReaderState) (w : Way) : NodeReaderState :=
  match w.nodes.head?, w.nodes.getLast? with
  | some n0, some nl =>
    let st := add_node st n0
    let st := add_node st nl
    let st := { st with all_nodes := refInsert st.all_nodes n0.ref }
    let st := { st with all_nodes := refInsert st.all_nodes nl.ref }
    ((w.nodes.drop 1).dropLast).foldl
      (fun st n =>
        let st := if refMem st.all_nodes n.ref then add_node st n else st
        { st with all_nodes := refInsert st.all_nodes n.ref })
      st
  | _, _ => st

/-- `NodeReader.way`: only valid ways are handled. -/
def nodeReaderWay (st : NodeReaderState) (w : Way) : NodeReaderState :=
  if valid_way w then handle_way st w else st

/-- A full `NodeReader` pass over the way stream. -/
def runNodeReader (ways : List Way) : NodeReaderState :=
  ways.foldl nodeReaderWay { all_nodes := [], nodes := [], counter := 0 }

/-- `oneway` resolution: `oneway=yes` or `junction=roundabout`. -/
def onewayOf (tags : Tags) : Bool :=
  tagsGet tags "oneway" "no" == "yes" || tagsGet tags "junction" "" == "roundabout"

/-- Name resolution (source lines 283-288): an alternate name from
name/addr:street/ref is computed but immediately overwritten with the
`ref` tag (dead in the source); only the live assignment is modelled,
with truncation over 50 characters. -/
def nameOf (tags : Tags) : String :=
  let name := tagsGet tags "ref" ""
  if 50 < name.length then (name.take 47) ++ "..." else name

/-- Speed resolution (source lines 294-317).  The undirected `maxspeed`
value is resolved from country codes or a float literal; when not oneway,
`speed` is overwritten by a parsable non-zero `maxspeed:forward`
(a zero or unparsable tag keeps the current value), and `back_speed`
falls back to the *current* `speed` when `maxspeed:backward` parses to
zero (an unparsable backward tag leaves `back_speed` unset). -/
def resolveSpeeds (tags : Tags) (oneway : Bool) : Option Q × Option Q :=
  let maxspeed := tagsGet tags "maxspeed" ""
  let speed : Option Q :=
    if maxspeed == "FR:walk" then some 20
    else if maxspeed == "FR:urban" then some 50
    else if maxspeed == "FR:rural" then some 80
    else pyFloat maxspeed
  if oneway then (speed, none)
  else
    let speed : Option Q :=
      match pyFloat (tagsGet tags "maxspeed:forward" "0") with
      | none => speed
      | some x => if Q.valEq x 0 then speed else some x
    let back_speed : Option Q :=
      match pyFloat (tagsGet tags "maxspeed:backward" "0") with
      | none => none
      | some x => if Q.valEq x 0 then speed else some x
    (speed, back_speed)

/-- Lane resolution (source lines 319-349).  Oneway: the `lanes` tag
clamped to 1, else the class default.  Bidirectional: per direction, the
direction tag if non-zero, else half the total `lanes` tag (floor
division), clamped to 1 — both parses live in a single `try` block, so a
parse failure in either falls through to the class default. -/
def resolveLanes (tags : Tags) (oneway : Bool) (road_type : String) : Int × Int :=
  let dflt := defaultLanesOf road_type
  if oneway then
    let lanes := (pyInt (tagsGet tags "lanes" "")).map (fun n => max n 1)
    (lanes.getD dflt, dflt)
  else
    let lanes : Option Int :=
      match pyInt (tagsGet tags "lanes:forward" "0") with
      | none => none
      | some x =>
        if x == 0 then (pyInt (tagsGet tags "lanes" "")).map (fun n => max (Int.fdiv n 2) 1)
        else some (max x 1)
    let back_lanes : Option Int :=
      match pyInt (tagsGet tags "lanes:backward" "0") with
      | none => none
      | some x =>
        if x == 0 then (pyInt (tagsGet tags "lanes" "")).map (fun n => max (Int.fdiv n 2) 1)
        else some (max x 1)
    (lanes.getD dflt, back_lanes.getD dflt)

/-- An edge feature as appended by `EdgeReader.add_edge`. -/
structure Edge0 where
  id : Nat
  name : String
  road_type : Nat
  lanes : Int
  length : Q
  speed : Option Q
  capacity : Option Nat
  source : Nat
  target : Nat
  osm_id : Nat
  geometry : List (Q × Q)
deriving DecidableEq

/-- The state of `EdgeReader`: the vertex dict, the growing edge list and
the edge id counter. -/
structure EdgeReaderState where
  nodes : List Vertex
  edges : List Edge0
  counter : Nat
deriving DecidableEq

/-- Lookup of a selected vertex by source-native ref (`self.nodes[ref]`). -/
def dictFind (nodes : List Vertex) (ref : Nat) : Option Vertex :=
  nodes.find? (fun v => v.osm_id == ref)

/-- `ref in self.nodes`. -/
def inDict (nodes : List Vertex) (ref : Nat) : Bool :=
  (dictFind nodes ref).isSome

/-- Fallback node for out-of-range indexing (unreachable: `add_way` only
passes indices found inside the node list). -/
def defaultNode : OsmNode := { ref := 0, valid := false, lon := 0, lat := 0 }

/-- The coordinates of the points with a valid location between the two
segment endpoints (source indices `source..target` inclusive). -/
def segmentCoords (ns : List OsmNode) (source target : Nat) : List (Q × Q) :=
  (((ns.drop source).take (target - source + 1)).filter (fun n => n.valid)).map
    (fun n => (n.lon, n.lat))

/-- Sum of pairwise geodesic distances (km) along the coordinates, scaled
to meters — `np.sum(haversine_vector(coords[:-1], coords[1:])) * 1000`
with the distance function abstracted. -/
def segmentLength (dist : (Q × Q) → (Q × Q) → Q) (coords : List (Q × Q)) : Q :=
  ((coords.dropLast.zip (coords.drop 1)).foldl (fun acc p => acc + dist p.1 p.2) 0) * 1000

/-- `EdgeReader.add_edge`: skip self-loops, build forward (and, if not
oneway, backward) edge features and advance the id counter. -/
def add_edge (dist : (Q × Q) → (Q × Q) → Q) (st : EdgeReaderState) (w : Way)
    (source target : Nat) (oneway : Bool) (name : String) (road_type : Nat)
    (lanes back_lanes : Int) (speed back_speed : Option Q)
    (capacity : Option Nat) : EdgeReaderState :=
  let source_id := ((dictFind st.nodes ((w.nodes.getD source defaultNode).ref)).map
    (fun v => v.id)).getD 0
  let target_id := ((dictFind st.nodes ((w.nodes.getD target defaultNode).ref)).map
    (fun v => v.id)).getD 0
  if source_id == target_id then st
  else
    let coords := segmentCoords w.nodes source target
    let length := segmentLength dist coords
    let fwd : Edge0 :=
      { id := st.counter, name := name, road_type := road_type, lanes := lanes,
        length := length, speed := speed, capacity := capacity,
        source := source_id, target := target_id, osm_id := w.id, geometry := coords }
    if oneway then { st with edges := st.edges ++ [fwd], counter := st.counter + 1 }
    else
      let bwd : Edge0 :=
        { id := st.counter + 1, name := name, road_type := road_type, lanes := back_lanes,
          length := length, speed := back_speed, capacity := capacity,
          source := target_id, target := source_id, osm_id := w.id,
          geometry := coords.reverse }
      { st with edges := st.edges ++ [fwd, bwd], counter := st.counter + 2 }

/-- The successive (source, target) index pairs walked by the segmentation
loop: the running source is replaced by each target in turn. -/
def segTargets (source : Nat) : List Nat → List (Nat × Nat)
  | [] => []
  | t :: rest => (source, t) :: segTargets t rest

/-- `EdgeReader.add_way`: resolve way-level attributes, find the first
selected vertex, then emit an edge between each consecutive pair of
selected vertices. -/
def add_way (dist : (Q × Q) → (Q × Q) → Q) (st : EdgeReaderState) (w : Way) :
    EdgeReaderState :=
  if ¬ valid_way w then st
  else
    let road_type := (tagsFind w.tags "highway").getD ""
    let road_type_id := roadTypeId road_type
    let name := nameOf w.tags
    let oneway := onewayOf w.tags
    let sp := resolveSpeeds w.tags oneway
    let ln := resolveLanes w.tags oneway road_type
    let capacity := capacityOf road_type
    match w.nodes.findIdx? (fun n => inDict st.nodes n.ref) with
    | none => st
    | some source =>
      let j := source + 1
      let idxs := (w.nodes.drop j).enum.filterMap
        (fun p => if inDict st.nodes p.2.ref then some (j + p.1) else none)
      (segTargets source idxs).foldl
        (fun st p =>
          add_edge dist st w p.1 p.2 oneway name road_type_id ln.1 ln.2 sp.1 sp.2 capacity)
        st

/-- A full `EdgeReader` pass over the way stream, given the selected
vertex dict. -/
def runEdgeReader (dist : (Q × Q) → (Q × Q) → Q) (nodes : List Vertex)
    (ways : List Way) : EdgeReaderState :=
  ways.foldl (add_way dist) { nodes := nodes, edges := [], counter := 0 }

/-- Record the two endpoints of one edge pair in order of first
appearance. -/
def vlStep (acc : List Nat) (p : Nat × Nat) : List Nat :=
  let acc := if acc.contains p.1 then acc else acc ++ [p.1]
  if acc.contains p.2 then acc else acc ++ [p.2]

/-- The vertices of the directed graph built from the edge table's
(source, target) pairs, in order of first appearance. -/
def verticesList (E : List (Nat × Nat)) : List Nat :=
  E.foldl vlStep []

/-- The targets occurring in the edge pair list. -/
def targetsOf (E : List (Nat × Nat)) : Finset Nat :=
  E.foldr (fun p acc => insert p.2 acc) ∅

/-- One step of forward closure: add the target of every edge whose source
is already in the set. -/
def expandStep (E : List (Nat × Nat)) (S : Finset Nat) : Finset Nat :=
  E.foldr (fun p acc => if p.1 ∈ S then insert p.2 acc else acc) S

/-- Saturate forward closure, with enough fuel to reach a fixpoint. -/
def reachSet (E : List (Nat × Nat)) : Nat → Finset Nat → Finset Nat
  | 0, S => S
  | n + 1, S => if expandStep E S = S then S else reachSet E n (expandStep E S)

/-- Decidable reachability over the edge pair list. -/
def reachB (E : List (Nat × Nat)) (u v : Nat) : Bool :=
  v ∈ reachSet E (E.length + 1) {u}

/-- The strongly connected component of `r`: the graph vertices mutually
reachable with `r`. -/
def sccOf (E : List (Nat × Nat)) (r : Nat) : Finset Nat :=
  (verticesList E).toFinset.filter (fun u => reachB E r u ∧ reachB E u r)

/-- The largest strongly connected component
(`max(nx.strongly_connected_components(G), key=len)`; on ties the first
candidate in vertex-appearance order is kept — the library's tie order is
unspecified, and no result below depends on the tie choice). -/
def largestSCC (E : List (Nat × Nat)) : Finset Nat :=
  match verticesList E with
  | [] => ∅
  | v :: vs =>
    vs.foldl (fun best u => if best.card < (sccOf E u).card then sccOf E u else best)
      (sccOf E v)

/-- A single directed step via some edge pair. -/
def StepE (E : List (Nat × Nat)) (u v : Nat) : Prop := (u, v) ∈ E

/-- Reachability (reflexive-transitive closure of `StepE`). -/
def Reach (E : List (Nat × Nat)) : Nat → Nat → Prop :=
  Relation.ReflTransGen (StepE E)

/-- An edge row after `post_process` has attached its flag columns. -/
structure EdgeP extends Edge0 where
  main_graph : Bool
  allow_od : Bool
  urban : Bool
deriving DecidableEq

/-- `ROADTYPE_TO_ID` image of `MAIN_HIGHWAYS` (the `main_highways` list of
`post_process`). -/
def mainHighwayIds : List Nat := MAIN_HIGHWAYS.map roadTypeId

/-- `ROADTYPE_TO_ID` image of `OD_FORBIDDEN` (the `od_forbidden` list of
`post_process`). -/
def odForbiddenIds : List Nat := OD_FORBIDDEN.map roadTypeId

/-- Speed imputation for one row: fill a missing speed from the urban or
rural default table for the row's road type. -/
def imputeSpeed (urban : Bool) (road_type : Nat) (speed : Option Q) : Option Q :=
  if speed.isNone then
    (if urban then urbanSpeedOfId road_type else ruralSpeedOfId road_type)
  else speed

/-- Attach the `main_graph`, `allow_od` and `urban` columns and impute
missing speeds (source lines 484-508). -/
def flagEdge (contains : List (Q × Q) → Bool) (e : Edge0) : EdgeP :=
  { toEdge0 := { e with speed := imputeSpeed (contains e.geometry) e.road_type e.speed },
    main_graph := mainHighwayIds.contains e.road_type,
    allow_od := ¬ odForbiddenIds.contains e.road_type,
    urban := contains e.geometry }

/-- The connectivity filter (source lines 461-480): keep the rows whose
endpoints both lie in the largest strongly connected component; when that
component covers every vertex the table is left untouched.  Rows keep
their original dataframe labels (their positions at creation). -/
def sccKeep (edges0 : List Edge0) : List (Nat × Edge0) :=
  let prs := edges0.map (fun e => (e.source, e.target))
  let C := largestSCC prs
  if C.card < (verticesList prs).toFinset.card then
    edges0.enum.filter (fun p => p.2.source ∈ C ∧ p.2.target ∈ C)
  else edges0.enum

/-- The rows of the duplicate group for the ordered pair (s, t)
(`edges.loc[(edges["source"] == s) & (edges["target"] == t)]`). -/
def stGroup (edges : List (Nat × EdgeP)) (s t : Nat) : List (Nat × EdgeP) :=
  edges.filter (fun p => p.2.source == s && p.2.target == t)

/-- Maximum of two possibly-missing values, skipping the missing ones. -/
def optMax2 : Option Nat → Option Nat → Option Nat
  | none, m => m
  | some x, none => some x
  | some x, some m => some (max x m)

/-- The maximum of a float column that may hold missing values
(`Series.max`: missing values are skipped; `none` iff all are missing). -/
def pandasMax : List (Option Nat) → Option Nat
  | [] => none
  | c :: r => optMax2 c (pandasMax r)

/-- `<` against a possibly-missing value, with pandas missing-value
semantics: any comparison involving a missing value is false. -/
def optLtB : Option Nat → Option Nat → Bool
  | some a, some b => a < b
  | _, _ => false

/-- `==` with pandas missing-value semantics: comparisons involving a
missing value are false. -/
def optEqB : Option Nat → Option Nat → Bool
  | some a, some b => a == b
  | _, _ => false

/-- Free-flow travel time `length / (speed / 3.6)` of a row (missing when
the speed is still missing; such rows are skipped by `argmin`). -/
def ttOf (e : EdgeP) : Option Q := e.speed.map (fun s => e.length / (s / ⟨18, 5⟩))

/-- One step of the running minimum: keep the earlier row on ties. -/
def argminFold (best : Option (Nat × Q)) (p : Nat × Q) : Option (Nat × Q) :=
  match best with
  | none => some p
  | some b => if p.2 < b.2 then some p else some b

/-- `tt.index[tt.argmin()]`: the label of the first row attaining the
minimal travel time (missing travel times are skipped). -/
def argminIdx (l : List (Nat × EdgeP)) : Option Nat :=
  ((l.filterMap (fun p => (ttOf p.2).map (fun t => (p.1, t)))).foldl argminFold none).map
    (fun p => p.1)

/-- The travel-time tie-break (source lines 529-532): when more than one
row remains, remove every row but the first one attaining the minimal
free-flow travel time.  (The `none` fallback is unreachable in the
pipeline: speeds are imputed before deduplication.) -/
def dupStep3 (dupl2 : List (Nat × EdgeP)) : List Nat :=
  if 1 < dupl2.length then
    match argminIdx dupl2 with
    | some id_min => (dupl2.filter (fun p => ¬ p.1 == id_min)).map (fun p => p.1)
    | none => []
  else []

/-- The capacity rule followed by the travel-time tie-break (source lines
526-532): remove every row whose capacity is below the group maximum, then
tie-break the rows at the maximum. -/
def dupStepCap (dupl1 : List (Nat × EdgeP)) : List Nat :=
  let max_capacity := pandasMax (dupl1.map (fun p => p.2.capacity))
  ((dupl1.filter (fun p => optLtB p.2.capacity max_capacity)).map (fun p => p.1)) ++
    dupStep3 (dupl1.filter (fun p => optEqB p.2.capacity max_capacity))

/-- The labels removed from one duplicate group (the body of the loop at
source lines 513-533): groups of size ≤ 1 are never visited; with exactly
one main-graph row the non-main rows are dropped; in a mixed group the
non-main rows are dropped and the capacity/travel-time rules run on the
main rows; otherwise the capacity/travel-time rules run on the whole
group. -/
def dupIndices (edges : List (Nat × EdgeP)) (s t : Nat) : List Nat :=
  let dupl := stGroup edges s t
  if dupl.length ≤ 1 then []
  else
    let nb_mains := (dupl.filter (fun p => p.2.main_graph)).length
    let nb_secondary := dupl.length - nb_mains
    if nb_mains == 1 then (dupl.filter (fun p => ¬ p.2.main_graph)).map (fun p => p.1)
    else if 0 < nb_mains ∧ 0 < nb_secondary then
      ((dupl.filter (fun p => ¬ p.2.main_graph)).map (fun p => p.1)) ++
        dupStepCap (dupl.filter (fun p => p.2.main_graph))
    else dupStepCap dupl

/-- The duplicate resolver (source lines 510-536): a row survives iff its
label is not removed by its own (source, target) group.  (The source
accumulates the per-group removal lists over all groups of size > 1 and
drops them at the end; since a group's removal list only contains labels
of that group, the two phrasings drop the same rows.) -/
def dedupEdges (edges : List (Nat × EdgeP)) : List (Nat × EdgeP) :=
  edges.filter (fun p => ¬ (dupIndices edges p.2.source p.2.target).contains p.1)

/-- `EdgeReader.post_process`: connectivity filter, flag columns, speed
imputation, duplicate resolution, final reindexing (the final dense index
is the list position). -/
def post_process (contains : List (Q × Q) → Bool) (edges0 : List Edge0) : List EdgeP :=
  let kept := sccKeep edges0
  let flagged := kept.map (fun p => (p.1, flagEdge contains p.2))
  (dedupEdges flagged).map (fun p => p.2)

/-- The whole pipeline of the script's main block: select vertices, build
edges, post-process with the urban-area containment test. -/
def run_pipeline (dist : (Q × Q) → (Q × Q) → Q) (contains : List (Q × Q) → Bool)
    (ways : List Way) : List EdgeP :=
  post_process contains (runEdgeReader dist (runNodeReader ways).nodes ways).edges

/-- The list consists of consecutive pairs, each related by `R` (used to
state that a bidirectional way's edges come in forward/backward twins). -/
inductive PairedBy (R : Edge0 → Edge0 → Prop) : List Edge0 → Prop
  | nil : PairedBy R []
  | cons {a b : Edge0} {l : List Edge0} : R a b → PairedBy R l → PairedBy R (a :: b :: l)

/-- The per-segment forward/backward relationship asserted by the
directionality property: given per-direction lane counts `ln`, the
backward twin swaps source and target, carries the backward lane count
and shares the forward length. -/
def fwdBackPair (ln : Int × Int) (ef eb : Edge0) : Prop :=
  ef.lanes = ln.1 ∧ eb.lanes = ln.2 ∧ eb.source = ef.target ∧ eb.target = ef.source ∧
    eb.length = ef.length

/-- Decidable positivity of an optional speed: missing counts as
vacuously positive. -/
def optPosB (o : Option Q) : Bool :=
  match o with
  | none => true
  | some q => decide ((0 : Q) < q)

/-- A zero distance function (used to instantiate the abstract geodesic
distance in concrete runs). -/
def distZero : (Q × Q) → (Q × Q) → Q := fun _ _ => 0

/-- Concrete nodes for the concrete runs below. -/
def nd1 : OsmNode := ⟨1, true, 0, 0⟩

/-- Concrete node. -/
def nd2 : OsmNode := ⟨2, true, 1, 0⟩

/-- Concrete node. -/
def nd3 : OsmNode := ⟨3, true, 2, 0⟩

/-- Concrete node. -/
def nd4 : OsmNode := ⟨4, true, 3, 0⟩

/-- A valid bidirectional way tagged `maxspeed=0`. -/
def wMax0 : Way := ⟨100, [nd1, nd2], [("highway", "residential"), ("maxspeed", "0")]⟩

/-- A valid bidirectional way with an undirected `maxspeed=50` and a
direction-specific `maxspeed:forward=70`. -/
def wFwd70 : Way :=
  ⟨101, [nd1, nd2],
   [("highway", "residential"), ("maxspeed", "50"), ("maxspeed:forward", "70")]⟩

/-- A valid way that visits its interior point (ref 2) twice. -/
def wRevisit : Way := ⟨102, [nd1, nd2, nd3, nd2, nd4], [("highway", "residential")]⟩

/-- A valid isolated way with four pairwise distinct points. -/
def wIso : Way := ⟨103, [nd1, nd2, nd3, nd4], [("highway", "residential")]⟩

/-- A valid bidirectional way tagged `lanes:forward=2, lanes:backward=1`. -/
def wLanes : Way :=
  ⟨104, [nd1, nd2],
   [("highway", "residential"), ("lanes:forward", "2"), ("lanes:backward", "1")]⟩

/-- A valid bidirectional way with a positive `maxspeed`. -/
def wGood : Way := ⟨105, [nd1, nd2], [("highway", "residential"), ("maxspeed", "30")]⟩

/-- Tag mapping with a forward maxspeed override and no backward tag. -/
def exTags3 : Tags := [("maxspeed", "50"), ("maxspeed:forward", "70")]

/-- Tag mapping with a malformed `lanes:forward` and a parsable `lanes`. -/
def exTags4 : Tags := [("lanes:forward", "abc"), ("lanes", "4")]

/-- An edge row 0 → 1 with unresolved speed (residential, id 13). -/
def egCyc1 : Edge0 := ⟨0, "", 13, 1, 5, none, some 600, 0, 1, 7, []⟩

/-- An edge row 1 → 0 with a resolved speed (primary, id 3). -/
def egCyc2 : Edge0 := ⟨1, "", 3, 1, 5, some 42, some 1500, 1, 0, 7, []⟩

/-- A processed main-graph row 0 → 1 with capacity 800. -/
def epMain : EdgeP := ⟨⟨0, "", 4, 1, 100, some 50, some 800, 0, 1, 1, []⟩, true, true, false⟩

/-- A processed non-main row 0 → 1 with capacity 2000. -/
def epSec : EdgeP := ⟨⟨1, "", 13, 1, 100, some 50, some 2000, 0, 1, 2, []⟩, false, true, false⟩

/-- The labelled duplicate group for the tie-break example. -/
def dupPairC6 : List (Nat × EdgeP) := [(0, epMain), (1, epSec)]

/-- A throwaway raw edge row, used only to take the head of concrete
lists in closed statements. -/
def dummyE0 : Edge0 := ⟨0, "", 0, 1, 0, none, none, 0, 0, 0, []⟩

/-- A throwaway processed edge row, used only to take the head of
concrete lists in closed statements. -/
def dummyEP : EdgeP := ⟨⟨0, "", 0, 1, 0, none, none, 0, 0, 0, []⟩, false, false, false⟩

/-- An area record that does not qualify as urban. -/
def arGrass : Area := ⟨[("landuse", "grass")], 1⟩

theorem mem_expandStep {E : List (Nat × Nat)} {S : Finset Nat} {x : Nat} :
    x ∈ expandStep E S ↔ x ∈ S ∨ ∃ p ∈ E, p.1 ∈ S ∧ p.2 = x := by
  induction E with
  | nil => simp [expandStep]
  | cons q E ih =>
    simp only [expandStep, List.foldr_cons] at ih ⊢
    by_cases h : q.1 ∈ S
    · simp only [if_pos h, Finset.mem_insert, ih, List.mem_cons]
      constructor
      · rintro (rfl | hx | ⟨p, hp, h1, h2⟩)
        · exact Or.inr ⟨q, Or.inl rfl, h, rfl⟩
        · exact Or.inl hx
        · exact Or.inr ⟨p, Or.inr hp, h1, h2⟩
      · rintro (hx | ⟨p, rfl | hp, h1, h2⟩)
        · exact Or.inr (Or.inl hx)
        · exact Or.inl h2.symm
        · exact Or.inr (Or.inr ⟨p, hp, h1, h2⟩)
    · simp only [if_neg h, ih, List.mem_cons]
      constructor
      · rintro (hx | ⟨p, hp, h1, h2⟩)
        · exact Or.inl hx
        · exact Or.inr ⟨p, Or.inr hp, h1, h2⟩
      · rintro (hx | ⟨p, rfl | hp, h1, h2⟩)
        · exact Or.inl hx
        · exact absurd h1 h
        · exact Or.inr ⟨p, hp, h1, h2⟩

theorem mem_targetsOf {E : List (Nat × Nat)} {x : Nat} :
    x ∈ targetsOf E ↔ ∃ p ∈ E, p.2 = x := by
  induction E with
  | nil => simp [targetsOf]
  | cons q E ih =>
    simp only [targetsOf, List.foldr_cons] at ih ⊢
    rw [Finset.mem_insert]
    constructor
    · rintro (rfl | hx)
      · exact ⟨q, List.mem_cons_self _ _, rfl⟩
      · obtain ⟨p, hp, h2⟩ := ih.mp hx
        exact ⟨p, List.mem_cons_of_mem _ hp, h2⟩
    · rintro ⟨p, hp, h2⟩
      rcases List.mem_cons.mp hp with rfl | hp
      · exact Or.inl h2.symm
      · exact Or.inr (ih.mpr ⟨p, hp, h2⟩)

theorem subset_expandStep (E : List (Nat × Nat)) (S : Finset Nat) :
    S ⊆ expandStep E S :=
  fun _ hx => mem_expandStep.mpr (Or.inl hx)

theorem expandStep_subset (E : List (Nat × Nat)) (S : Finset Nat) :
    expandStep E S ⊆ S ∪ targetsOf E := by
  intro x hx
  rcases mem_expandStep.mp hx with h | ⟨p, hp, _, h2⟩
  · exact Finset.mem_union_left _ h
  · exact Finset.mem_union_right _ (mem_targetsOf.mpr ⟨p, hp, h2⟩)

theorem targetsOf_card_le (E : List (Nat × Nat)) : (targetsOf E).card ≤ E.length := by
  induction E with
  | nil => simp [targetsOf]
  | cons q E ih =>
    simp only [targetsOf, List.foldr_cons, List.length_cons]
    calc (insert q.2 (targetsOf E)).card ≤ (targetsOf E).card + 1 :=
          Finset.card_insert_le _ _
      _ ≤ E.length + 1 := Nat.add_le_add_right ih 1

theorem subset_reachSet (E : List (Nat × Nat)) (n : Nat) (S : Finset Nat) :
    S ⊆ reachSet E n S := by
  induction n generalizing S with
  | zero => exact Finset.Subset.refl S
  | succ n ih =>
    by_cases h : expandStep E S = S
    · simp [reachSet, h]
    · simp only [reachSet, if_neg h]
      exact (subset_expandStep E S).trans (ih (expandStep E S))

theorem reachSet_closed (E : List (Nat × Nat)) (n : Nat) (S : Finset Nat)
    (hn : (targetsOf E \ S).card ≤ n) :
    expandStep E (reachSet E n S) = reachSet E n S := by
  induction n generalizing S with
  | zero =>
    have hsub : targetsOf E ⊆ S := by
      rw [← Finset.sdiff_eq_empty_iff_subset]
      exact Finset.card_eq_zero.mp (Nat.le_zero.mp hn)
    show expandStep E (reachSet E 0 S) = reachSet E 0 S
    show expandStep E S = S
    refine Finset.Subset.antisymm ?_ (subset_expandStep E S)
    intro x hx
    rcases Finset.mem_union.mp (expandStep_subset E S hx) with h | h
    · exact h
    · exact hsub h
  | succ n ih =>
    by_cases h : expandStep E S = S
    · simp [reachSet, h]
    · simp only [reachSet, if_neg h]
      apply ih
      have hss : S ⊂ expandStep E S :=
        lt_of_le_of_ne (subset_expandStep E S) (fun he => h he.symm)
      obtain ⟨x, hxE, hxS⟩ := Finset.exists_of_ssubset hss
      have hxT : x ∈ targetsOf E := by
        rcases Finset.mem_union.mp (expandStep_subset E S hxE) with hh | hh
        · exact absurd hh hxS
        · exact hh
      have hstrict : targetsOf E \ expandStep E S ⊂ targetsOf E \ S := by
        refine Finset.ssubset_iff_of_subset
          (Finset.sdiff_subset_sdiff (Finset.Subset.refl _) (subset_expandStep E S)) |>.mpr ?_
        exact ⟨x, Finset.mem_sdiff.mpr ⟨hxT, hxS⟩,
          fun hc => (Finset.mem_sdiff.mp hc).2 hxE⟩
      have := Finset.card_lt_card hstrict
      omega

theorem reachSet_sound (E : List (Nat × Nat)) (n : Nat) (S : Finset Nat) (x : Nat)
    (hx : x ∈ reachSet E n S) : ∃ s ∈ S, Reach E s x := by
  induction n generalizing S with
  | zero => exact ⟨x, hx, Relation.ReflTransGen.refl⟩
  | succ n ih =>
    by_cases h : expandStep E S = S
    · simp only [reachSet, if_pos h] at hx
      exact ⟨x, hx, Relation.ReflTransGen.refl⟩
    · simp only [reachSet, if_neg h] at hx
      obtain ⟨s, hs, hr⟩ := ih (expandStep E S) hx
      rcases mem_expandStep.mp hs with hsS | ⟨p, hpE, hp1, hp2⟩
      · exact ⟨s, hsS, hr⟩
      · have hstep : StepE E p.1 s := by
          show (p.1, s) ∈ E
          rw [← hp2]
          exact hpE
        exact ⟨p.1, hp1, Relation.ReflTransGen.head hstep hr⟩

theorem closed_absorbs (E : List (Nat × Nat)) (T : Finset Nat)
    (h : expandStep E T = T) {u v : Nat} (hu : u ∈ T) (hr : Reach E u v) : v ∈ T := by
  induction hr with
  | refl => exact hu
  | tail _ step ih =>
    have : _ ∈ expandStep E T := mem_expandStep.mpr (Or.inr ⟨_, step, ih, rfl⟩)
    rwa [h] at this

theorem reachB_iff (E : List (Nat × Nat)) (u v : Nat) :
    reachB E u v = true ↔ Reach E u v := by
  constructor
  · intro h
    have hx : v ∈ reachSet E (E.length + 1) {u} := of_decide_eq_true h
    obtain ⟨s, hs, hr⟩ := reachSet_sound E _ _ v hx
    rwa [Finset.mem_singleton.mp hs] at hr
  · intro h
    have hclosed : expandStep E (reachSet E (E.length + 1) {u}) =
        reachSet E (E.length + 1) {u} := by
      apply reachSet_closed
      calc (targetsOf E \ {u}).card ≤ (targetsOf E).card :=
            Finset.card_le_card (Finset.sdiff_subset)
        _ ≤ E.length := targetsOf_card_le E
        _ ≤ E.length + 1 := Nat.le_succ _
    have hu : u ∈ reachSet E (E.length + 1) {u} :=
      subset_reachSet E _ _ (Finset.mem_singleton_self u)
    exact decide_eq_true (closed_absorbs E _ hclosed hu h)

theorem mem_condAppend {l : List Nat} {x : Nat} (y : Nat) (hx : x ∈ l) :
    x ∈ (if l.contains y then l else l ++ [y]) := by
  split
  · exact hx
  · exact List.mem_append_left _ hx

theorem self_mem_condAppend (l : List Nat) (y : Nat) :
    y ∈ (if l.contains y then l else l ++ [y]) := by
  split
  · next h => simpa using h
  · exact List.mem_append_right _ (by simp)

theorem mem_vlStep_of_mem {acc : List Nat} {x : Nat} (p : Nat × Nat) (hx : x ∈ acc) :
    x ∈ vlStep acc p :=
  mem_condAppend p.2 (mem_condAppend p.1 hx)

theorem fst_mem_vlStep (acc : List Nat) (p : Nat × Nat) : p.1 ∈ vlStep acc p :=
  mem_condAppend p.2 (self_mem_condAppend acc p.1)

theorem snd_mem_vlStep (acc : List Nat) (p : Nat × Nat) : p.2 ∈ vlStep acc p :=
  self_mem_condAppend _ p.2

theorem mem_foldl_vlStep_of_mem (E : List (Nat × Nat)) (acc : List Nat) (x : Nat)
    (hx : x ∈ acc) : x ∈ E.foldl vlStep acc := by
  induction E generalizing acc with
  | nil => exact hx
  | cons q E ih => exact ih _ (mem_vlStep_of_mem q hx)

theorem mem_verticesList_aux (E : List (Nat × Nat)) (acc : List Nat) (p : Nat × Nat)
    (hp : p ∈ E) : p.1 ∈ E.foldl vlStep acc ∧ p.2 ∈ E.foldl vlStep acc := by
  induction E generalizing acc with
  | nil => cases hp
  | cons q E ih =>
    rcases List.mem_cons.mp hp with rfl | hp
    · exact ⟨mem_foldl_vlStep_of_mem E _ _ (fst_mem_vlStep acc p),
        mem_foldl_vlStep_of_mem E _ _ (snd_mem_vlStep acc p)⟩
    · exact ih _ hp

theorem mem_verticesList {E : List (Nat × Nat)} {p : Nat × Nat} (hp : p ∈ E) :
    p.1 ∈ verticesList E ∧ p.2 ∈ verticesList E :=
  mem_verticesList_aux E [] p hp

theorem mem_sccOf {E : List (Nat × Nat)} {r u : Nat} :
    u ∈ sccOf E r ↔ u ∈ verticesList E ∧ reachB E r u = true ∧ reachB E u r = true := by
  unfold sccOf
  rw [Finset.mem_filter, List.mem_toFinset]

theorem sccOf_subset (E : List (Nat × Nat)) (r : Nat) :
    sccOf E r ⊆ (verticesList E).toFinset :=
  Finset.filter_subset _ _

theorem largestSCC_cases (E : List (Nat × Nat)) :
    largestSCC E = ∅ ∨ ∃ r, largestSCC E = sccOf E r := by
  unfold largestSCC
  cases hv : verticesList E with
  | nil => exact Or.inl rfl
  | cons v vs =>
    refine Or.inr ?_
    have : ∀ (l : List Nat) (b : Finset Nat), (∃ r, b = sccOf E r) →
        ∃ r, l.foldl (fun best u => if best.card < (sccOf E u).card then sccOf E u else best)
          b = sccOf E r := by
      intro l
      induction l with
      | nil => exact fun b hb => hb
      | cons u l ih =>
        intro b hb
        apply ih
        by_cases h : b.card < (sccOf E u).card
        · refine ⟨u, ?_⟩
          simp only [if_pos h]
        · obtain ⟨r, hr⟩ := hb
          refine ⟨r, ?_⟩
          simp only [if_neg h]
          exact hr
    exact this vs _ ⟨v, rfl⟩

theorem largestSCC_subset (E : List (Nat × Nat)) :
    largestSCC E ⊆ (verticesList E).toFinset := by
  rcases largestSCC_cases E with h | ⟨r, h⟩
  · rw [h]
    exact Finset.empty_subset _
  · rw [h]
    exact sccOf_subset E r

theorem scc_confine (E : List (Nat × Nat)) (r : Nat) {u v : Nat}
    (hu : u ∈ sccOf E r) (hv : v ∈ sccOf E r) :
    Reach (E.filter (fun p => decide (p.1 ∈ sccOf E r) && decide (p.2 ∈ sccOf E r))) u v := by
  obtain ⟨huV, hru, hur⟩ := mem_sccOf.mp hu
  obtain ⟨hvV, hrv, hvr⟩ := mem_sccOf.mp hv
  have huv : Reach E u v :=
    Relation.ReflTransGen.trans ((reachB_iff E u r).mp hur) ((reachB_iff E r v).mp hrv)
  have main : ∀ a, Reach E a v → reachB E r a = true → a ∈ sccOf E r →
      Reach (E.filter (fun p => decide (p.1 ∈ sccOf E r) && decide (p.2 ∈ sccOf E r))) a v := by
    intro a hav
    induction hav using Relation.ReflTransGen.head_induction_on with
    | refl => intro _ _; exact Relation.ReflTransGen.refl
    | head step tail ih =>
      rename_i a c
      intro hra haC
      have hcV : c ∈ verticesList E := (mem_verticesList step).2
      have hrc : reachB E r c = true :=
        (reachB_iff E r c).mpr
          (Relation.ReflTransGen.tail ((reachB_iff E r a).mp hra) step)
      have hcr : reachB E c r = true :=
        (reachB_iff E c r).mpr (Relation.ReflTransGen.trans tail ((reachB_iff E v r).mp hvr))
      have hcC : c ∈ sccOf E r := mem_sccOf.mpr ⟨hcV, hrc, hcr⟩
      have hstep : StepE
          (E.filter (fun p => decide (p.1 ∈ sccOf E r) && decide (p.2 ∈ sccOf E r))) a c := by
        show (a, c) ∈ _
        rw [List.mem_filter]
        exact ⟨step, by simp [haC, hcC]⟩
      exact Relation.ReflTransGen.head hstep (ih hrc hcC)
  exact main u huv hru hu

theorem fst_nodup_eq {α : Type u} {l : List (Nat × α)} (hnd : (l.map Prod.fst).Nodup)
    {i : Nat} {a b : α} (ha : (i, a) ∈ l) (hb : (i, b) ∈ l) : a = b := by
  have hp : l.Pairwise (fun p q => p.1 ≠ q.1) := List.pairwise_map.mp hnd
  by_contra hne
  have hneq : (i, a) ≠ (i, b) := fun h => hne ((Prod.mk.injEq _ _ _ _).mp h).2
  have hsym : Symmetric (fun p q : Nat × α => p.1 ≠ q.1) :=
    fun _ _ h heq => h heq.symm
  exact (hp.forall hsym ha hb hneq) rfl

theorem two_mem_length_lt {α : Type u} {l : List α} {a b : α} (ha : a ∈ l) (hb : b ∈ l)
    (hab : a ≠ b) : 1 < l.length := by
  match l, ha with
  | [x], ha =>
    rw [List.mem_singleton] at ha hb
    exact absurd (ha.trans hb.symm) hab
  | x :: y :: l, _ => simp [Nat.lt_of_sub_eq_succ]

theorem pandasMax_isSome {l : List (Option Nat)} {c : Nat} (hc : some c ∈ l) :
    ∃ m, pandasMax l = some m := by
  induction l with
  | nil => cases hc
  | cons a l ih =>
    rcases List.mem_cons.mp hc with rfl | hc
    · cases h : pandasMax l with
      | none => exact ⟨c, by simp [pandasMax, optMax2, h]⟩
      | some m' => exact ⟨max c m', by simp [pandasMax, optMax2, h]⟩
    · obtain ⟨m, hm⟩ := ih hc
      cases a with
      | none => exact ⟨m, by simp [pandasMax, optMax2, hm]⟩
      | some x => exact ⟨max x m, by simp [pandasMax, optMax2, hm]⟩

theorem pandasMax_mem {l : List (Option Nat)} {m : Nat} (hm : pandasMax l = some m) :
    some m ∈ l := by
  induction l generalizing m with
  | nil => simp [pandasMax] at hm
  | cons a l ih =>
    cases a with
    | none =>
      have : pandasMax (none :: l) = pandasMax l := rfl
      rw [this] at hm
      exact List.mem_cons_of_mem _ (ih hm)
    | some x =>
      cases h : pandasMax l with
      | none =>
        have : pandasMax (some x :: l) = some x := by simp [pandasMax, optMax2, h]
        rw [this] at hm
        injection hm with h'
        rw [← h']
        exact List.mem_cons_self _ _
      | some m' =>
        have : pandasMax (some x :: l) = some (max x m') := by
          simp [pandasMax, optMax2, h]
        rw [this] at hm
        injection hm with h'
        rcases max_choice x m' with hmx | hmx
        · rw [hmx] at h'
          rw [← h']
          exact List.mem_cons_self _ _
        · rw [hmx] at h'
          rw [← h']
          exact List.mem_cons_of_mem _ (ih h)

theorem pandasMax_le {l : List (Option Nat)} {c m : Nat} (hc : some c ∈ l)
    (hm : pandasMax l = some m) : c ≤ m := by
  induction l generalizing m with
  | nil => cases hc
  | cons a l ih =>
    rcases List.mem_cons.mp hc with rfl | hc
    · cases h : pandasMax l with
      | none =>
        have : pandasMax (some c :: l) = some c := by simp [pandasMax, optMax2, h]
        rw [this] at hm
        injection hm with h'
        omega
      | some m' =>
        have : pandasMax (some c :: l) = some (max c m') := by
          simp [pandasMax, optMax2, h]
        rw [this] at hm
        injection hm with h'
        have := Nat.le_max_left c m'
        omega
    · obtain ⟨m0, hm0⟩ := pandasMax_isSome hc
      have hle := ih hc hm0
      cases a with
      | none =>
        have : pandasMax (none :: l) = pandasMax l := rfl
        rw [this, hm0] at hm
        injection hm with h'
        omega
      | some x =>
        have : pandasMax (some x :: l) = some (max x m0) := by
          simp [pandasMax, optMax2, hm0]
        rw [this] at hm
        injection hm with h'
        have := Nat.le_max_right x m0
        omega


theorem foldl_argminFold_some (l : List (Nat × Q)) (b : Nat × Q) :
    ∃ y, l.foldl argminFold (some b) = some y ∧ (y = b ∨ y ∈ l) := by
  induction l generalizing b with
  | nil => exact ⟨b, rfl, Or.inl rfl⟩
  | cons x l ih =>
    show ∃ y, l.foldl argminFold (argminFold (some b) x) = some y ∧ _
    have hstep : argminFold (some b) x = some x ∨ argminFold (some b) x = some b := by
      by_cases h : x.2 < b.2
      · exact Or.inl (by simp [argminFold, h])
      · exact Or.inr (by simp [argminFold, h])
    rcases hstep with h | h
    · obtain ⟨y, hy, hmem⟩ := ih x
      rw [h]
      refine ⟨y, hy, ?_⟩
      rcases hmem with rfl | hmem
      · exact Or.inr (List.mem_cons_self _ _)
      · exact Or.inr (List.mem_cons_of_mem _ hmem)
    · obtain ⟨y, hy, hmem⟩ := ih b
      rw [h]
      refine ⟨y, hy, ?_⟩
      rcases hmem with rfl | hmem
      · exact Or.inl rfl
      · exact Or.inr (List.mem_cons_of_mem _ hmem)

theorem foldl_argminFold_none {l : List (Nat × Q)} (hne : l ≠ []) :
    ∃ y, l.foldl argminFold none = some y ∧ y ∈ l := by
  match l, hne with
  | x :: r, _ =>
    show ∃ y, r.foldl argminFold (argminFold none x) = some y ∧ _
    obtain ⟨y, hy, hmem⟩ := foldl_argminFold_some r x
    refine ⟨y, hy, ?_⟩
    rcases hmem with rfl | hmem
    · exact List.mem_cons_self _ _
    · exact List.mem_cons_of_mem _ hmem

theorem argminIdx_spec {l : List (Nat × EdgeP)} {p : Nat × EdgeP} (hp : p ∈ l)
    (hs : (ttOf p.2).isSome) :
    ∃ k e, argminIdx l = some k ∧ (k, e) ∈ l := by
  obtain ⟨t, ht⟩ := Option.isSome_iff_exists.mp hs
  have hmem : (p.1, t) ∈ l.filterMap (fun q => (ttOf q.2).map (fun t => (q.1, t))) :=
    List.mem_filterMap.mpr ⟨p, hp, by rw [ht]; rfl⟩
  obtain ⟨y, hy, hymem⟩ := foldl_argminFold_none (List.ne_nil_of_mem hmem)
  obtain ⟨a, ha, hmap⟩ := List.mem_filterMap.mp hymem
  have ha1 : a.1 = y.1 := by
    cases hta : ttOf a.2 with
    | none => rw [hta] at hmap; cases hmap
    | some t' =>
      rw [hta] at hmap
      injection hmap with h'
      rw [← h']
  refine ⟨y.1, a.2, ?_, ?_⟩
  · unfold argminIdx
    rw [hy]
    rfl
  · rw [← ha1]
    exact ha

theorem argminIdx_mem {l : List (Nat × EdgeP)} {k : Nat} (hk : argminIdx l = some k) :
    ∃ y, (k, y) ∈ l := by
  unfold argminIdx at hk
  cases hf : (l.filterMap (fun q => (ttOf q.2).map (fun t => (q.1, t)))).foldl argminFold none
    with
  | none => rw [hf] at hk; cases hk
  | some y =>
    rw [hf] at hk
    injection hk with hk1
    have hne : l.filterMap (fun q => (ttOf q.2).map (fun t => (q.1, t))) ≠ [] := by
      intro h0
      rw [h0] at hf
      cases hf
    obtain ⟨y', hy', hymem⟩ := foldl_argminFold_none hne
    rw [hf] at hy'
    injection hy' with hy1
    obtain ⟨a, ha, hmap⟩ := List.mem_filterMap.mp hymem
    have ha1 : a.1 = k := by
      cases hta : ttOf a.2 with
      | none => rw [hta] at hmap; cases hmap
      | some t' =>
        rw [hta] at hmap
        injection hmap with h'
        rw [← hk1, hy1, ← h']
    refine ⟨a.2, ?_⟩
    rw [← ha1]
    exact ha

theorem stGroup_mem {edges : List (Nat × EdgeP)} {s t : Nat} {p : Nat × EdgeP} :
    p ∈ stGroup edges s t ↔ p ∈ edges ∧ p.2.source = s ∧ p.2.target = t := by
  unfold stGroup
  rw [List.mem_filter]
  constructor
  · rintro ⟨h1, h2⟩
    rw [Bool.and_eq_true, beq_iff_eq, beq_iff_eq] at h2
    exact ⟨h1, h2⟩
  · rintro ⟨h1, h2, h3⟩
    refine ⟨h1, ?_⟩
    rw [Bool.and_eq_true, beq_iff_eq, beq_iff_eq]
    exact ⟨h2, h3⟩

theorem dupStep3_unique {l : List (Nat × EdgeP)} {i j : Nat} {e f : EdgeP}
    (hi : (i, e) ∈ l) (hj : (j, f) ∈ l) (hij : i ≠ j)
    (hsp : ∀ p ∈ l, (ttOf p.2).isSome)
    (hir : i ∉ dupStep3 l) (hjr : j ∉ dupStep3 l) : False := by
  have hlen : 1 < l.length :=
    two_mem_length_lt hi hj (fun h => hij (congrArg Prod.fst h))
  obtain ⟨k, y, hk, _⟩ := argminIdx_spec hi (hsp _ hi)
  have hstep : dupStep3 l = (l.filter (fun p => ¬ p.1 == k)).map (fun p => p.1) := by
    unfold dupStep3
    rw [if_pos hlen, hk]
  have hik : i = k := by
    by_contra hne
    apply hir
    rw [hstep]
    exact List.mem_map_of_mem _ (List.mem_filter.mpr ⟨hi, by simpa using hne⟩)
  have hjk : j = k := by
    by_contra hne
    apply hjr
    rw [hstep]
    exact List.mem_map_of_mem _ (List.mem_filter.mpr ⟨hj, by simpa using hne⟩)
  exact hij (hik.trans hjk.symm)

theorem dupStep3_survivor {l : List (Nat × EdgeP)} (hne : l ≠ []) :
    ∃ p ∈ l, p.1 ∉ dupStep3 l := by
  by_cases hlen : 1 < l.length
  · cases hk : argminIdx l with
    | none =>
      have h0 : dupStep3 l = [] := by unfold dupStep3; rw [if_pos hlen, hk]
      obtain ⟨p, hp⟩ := List.exists_mem_of_ne_nil l hne
      exact ⟨p, hp, by simp [h0]⟩
    | some k =>
      obtain ⟨y, hky⟩ := argminIdx_mem hk
      have hstep : dupStep3 l = (l.filter (fun p => ¬ p.1 == k)).map (fun p => p.1) := by
        unfold dupStep3
        rw [if_pos hlen, hk]
      refine ⟨(k, y), hky, ?_⟩
      rw [hstep]
      intro hmem
      obtain ⟨q, hq, hq1⟩ := List.mem_map.mp hmem
      have hqf : ¬ q.1 == k := by simpa using (List.mem_filter.mp hq).2
      exact hqf (by simp [hq1])
  · have h0 : dupStep3 l = [] := by unfold dupStep3; rw [if_neg hlen]
    obtain ⟨p, hp⟩ := List.exists_mem_of_ne_nil l hne
    exact ⟨p, hp, by simp [h0]⟩

theorem dupStepCap_unique {l : List (Nat × EdgeP)}
    (hcap : ∀ p ∈ l, p.2.capacity.isSome) (hsp : ∀ p ∈ l, (ttOf p.2).isSome)
    {i j : Nat} {e f : EdgeP} (hi : (i, e) ∈ l) (hj : (j, f) ∈ l) (hij : i ≠ j)
    (hir : i ∉ dupStepCap l) (hjr : j ∉ dupStepCap l) : False := by
  have hunfold : dupStepCap l =
      ((l.filter (fun p =>
        optLtB p.2.capacity (pandasMax (l.map (fun p => p.2.capacity))))).map (fun p => p.1)) ++
        dupStep3 (l.filter (fun p =>
          optEqB p.2.capacity (pandasMax (l.map (fun p => p.2.capacity))))) := rfl
  rw [hunfold, List.mem_append] at hir hjr
  push_neg at hir hjr
  obtain ⟨hir2, hir3⟩ := hir
  obtain ⟨hjr2, hjr3⟩ := hjr
  obtain ⟨ce, hce⟩ := Option.isSome_iff_exists.mp (hcap _ hi)
  obtain ⟨cf, hcf⟩ := Option.isSome_iff_exists.mp (hcap _ hj)
  have hce' : e.capacity = some ce := hce
  have hcf' : f.capacity = some cf := hcf
  have hcemem : some ce ∈ l.map (fun p => p.2.capacity) := by
    rw [← hce]
    exact List.mem_map_of_mem _ hi
  have hcfmem : some cf ∈ l.map (fun p => p.2.capacity) := by
    rw [← hcf]
    exact List.mem_map_of_mem _ hj
  obtain ⟨m, hm⟩ := pandasMax_isSome hcemem
  have hie : ce = m := by
    have hle := pandasMax_le hcemem hm
    by_contra hne
    apply hir2
    refine List.mem_map_of_mem _ (List.mem_filter.mpr ⟨hi, ?_⟩)
    have hlt : ce < m := lt_of_le_of_ne hle hne
    simp [optLtB, hce', hm, hlt]
  have hjf : cf = m := by
    have hle := pandasMax_le hcfmem hm
    by_contra hne
    apply hjr2
    refine List.mem_map_of_mem _ (List.mem_filter.mpr ⟨hj, ?_⟩)
    have hlt : cf < m := lt_of_le_of_ne hle hne
    simp [optLtB, hcf', hm, hlt]
  have hi2 : (i, e) ∈ l.filter (fun p =>
      optEqB p.2.capacity (pandasMax (l.map (fun p => p.2.capacity)))) :=
    List.mem_filter.mpr ⟨hi, by simp [optEqB, hce', hm, hie]⟩
  have hj2 : (j, f) ∈ l.filter (fun p =>
      optEqB p.2.capacity (pandasMax (l.map (fun p => p.2.capacity)))) :=
    List.mem_filter.mpr ⟨hj, by simp [optEqB, hcf', hm, hjf]⟩
  have hsp2 : ∀ p ∈ l.filter (fun p =>
      optEqB p.2.capacity (pandasMax (l.map (fun p => p.2.capacity)))),
      (ttOf p.2).isSome :=
    fun p hp => hsp p (List.mem_filter.mp hp).1
  exact dupStep3_unique hi2 hj2 hij hsp2 hir3 hjr3

theorem dupStepCap_survivor {l : List (Nat × EdgeP)} (hnd : (l.map Prod.fst).Nodup)
    (hne : l ≠ []) : ∃ p ∈ l, p.1 ∉ dupStepCap l := by
  have hunfold : dupStepCap l =
      ((l.filter (fun p =>
        optLtB p.2.capacity (pandasMax (l.map (fun p => p.2.capacity))))).map (fun p => p.1)) ++
        dupStep3 (l.filter (fun p =>
          optEqB p.2.capacity (pandasMax (l.map (fun p => p.2.capacity))))) := rfl
  cases hm : pandasMax (l.map (fun p => p.2.capacity)) with
  | none =>
    have h2 : l.filter (fun p =>
        optLtB p.2.capacity (pandasMax (l.map (fun p => p.2.capacity)))) = [] := by
      rw [List.filter_eq_nil_iff]
      intro p _
      rw [hm]
      cases p.2.capacity <;> simp [optLtB]
    have h3 : l.filter (fun p =>
        optEqB p.2.capacity (pandasMax (l.map (fun p => p.2.capacity)))) = [] := by
      rw [List.filter_eq_nil_iff]
      intro p _
      rw [hm]
      cases p.2.capacity <;> simp [optEqB]
    obtain ⟨p, hp⟩ := List.exists_mem_of_ne_nil l hne
    refine ⟨p, hp, ?_⟩
    rw [hunfold, h2, h3]
    simp [dupStep3]
  | some m =>
    obtain ⟨c, hcmem, hceq⟩ := List.mem_map.mp (pandasMax_mem hm)
    have hc2 : c ∈ l.filter (fun p =>
        optEqB p.2.capacity (pandasMax (l.map (fun p => p.2.capacity)))) :=
      List.mem_filter.mpr ⟨hcmem, by rw [hm]; simp [optEqB, hceq]⟩
    obtain ⟨q, hq2, hq3⟩ := dupStep3_survivor (List.ne_nil_of_mem hc2)
    have hql : q ∈ l := (List.mem_filter.mp hq2).1
    have hqcap : optEqB q.2.capacity (pandasMax (l.map (fun p => p.2.capacity))) = true :=
      (List.mem_filter.mp hq2).2
    refine ⟨q, hql, ?_⟩
    rw [hunfold, List.mem_append]
    rintro (hqmem | hqmem)
    · obtain ⟨r, hr, hr1⟩ := List.mem_map.mp hqmem
      have hrl := (List.mem_filter.mp hr).1
      have hrlt : optLtB r.2.capacity (pandasMax (l.map (fun p => p.2.capacity))) = true :=
        (List.mem_filter.mp hr).2
      have hr2 : r.2 = q.2 :=
        fst_nodup_eq hnd (show (q.1, r.2) ∈ l by rw [← hr1]; exact hrl) hql
      rw [hr2] at hrlt
      rw [hm] at hrlt hqcap
      cases hqc : q.2.capacity with
      | none => rw [hqc] at hqcap; simp [optEqB] at hqcap
      | some cq =>
        rw [hqc] at hqcap hrlt
        simp only [optEqB, beq_iff_eq] at hqcap
        simp only [optLtB, decide_eq_true_eq] at hrlt
        omega
    · exact hq3 hqmem

theorem dupIndices_def (edges : List (Nat × EdgeP)) (s t : Nat) :
    dupIndices edges s t =
      (if (stGroup edges s t).length ≤ 1 then []
       else if ((stGroup edges s t).filter (fun p => p.2.main_graph)).length == 1 then
         ((stGroup edges s t).filter (fun p => ¬ p.2.main_graph)).map (fun p => p.1)
       else if 0 < ((stGroup edges s t).filter (fun p => p.2.main_graph)).length ∧
           0 < (stGroup edges s t).length -
             ((stGroup edges s t).filter (fun p => p.2.main_graph)).length then
         (((stGroup edges s t).filter (fun p => ¬ p.2.main_graph)).map (fun p => p.1)) ++
           dupStepCap ((stGroup edges s t).filter (fun p => p.2.main_graph))
       else dupStepCap (stGroup edges s t)) := rfl

theorem dupIndices_survivor (edges : List (Nat × EdgeP))
    (hnd : (edges.map Prod.fst).Nodup) {i : Nat} {e : EdgeP} (hi : (i, e) ∈ edges) :
    ∃ j f, (j, f) ∈ edges ∧ f.source = e.source ∧ f.target = e.target ∧
      j ∉ dupIndices edges e.source e.target := by
  have hig : (i, e) ∈ stGroup edges e.source e.target := stGroup_mem.mpr ⟨hi, rfl, rfl⟩
  have hsub : ∀ p ∈ stGroup edges e.source e.target,
      p ∈ edges ∧ p.2.source = e.source ∧ p.2.target = e.target :=
    fun p hp => stGroup_mem.mp hp
  have hgnd : ((stGroup edges e.source e.target).map Prod.fst).Nodup :=
    (((List.filter_sublist _).map Prod.fst).nodup hnd)
  rw [dupIndices_def]
  set g := stGroup edges e.source e.target with hg
  by_cases h1 : g.length ≤ 1
  · rw [if_pos h1]
    exact ⟨i, e, hi, rfl, rfl, List.not_mem_nil i⟩
  · rw [if_neg h1]
    by_cases h2 : (g.filter (fun p => p.2.main_graph)).length == 1
    · rw [if_pos h2]
      have h2' : (g.filter (fun p => p.2.main_graph)).length = 1 := by simpa using h2
      obtain ⟨q, hq⟩ := List.length_eq_one.mp h2'
      have hqmem : q ∈ g.filter (fun p => p.2.main_graph) := by
        rw [hq]
        exact List.mem_cons_self _ _
      have hqg : q ∈ g := (List.mem_filter.mp hqmem).1
      have hqmain : q.2.main_graph = true := by simpa using (List.mem_filter.mp hqmem).2
      obtain ⟨hqe, hqs, hqt⟩ := hsub q hqg
      refine ⟨q.1, q.2, hqe, hqs, hqt, ?_⟩
      intro hmem
      obtain ⟨r, hr, hr1⟩ := List.mem_map.mp hmem
      have hrg := (List.mem_filter.mp hr).1
      have hrnm : ¬ r.2.main_graph = true := by simpa using (List.mem_filter.mp hr).2
      have hr2 : r.2 = q.2 :=
        fst_nodup_eq hgnd (show (q.1, r.2) ∈ g by rw [← hr1]; exact hrg) hqg
      rw [hr2] at hrnm
      exact hrnm hqmain
    · rw [if_neg h2]
      by_cases h3 : 0 < (g.filter (fun p => p.2.main_graph)).length ∧
          0 < g.length - (g.filter (fun p => p.2.main_graph)).length
      · rw [if_pos h3]
        have hmne : g.filter (fun p => p.2.main_graph) ≠ [] := by
          intro h0
          rw [h0] at h3
          simp at h3
        have hmnd : ((g.filter (fun p => p.2.main_graph)).map Prod.fst).Nodup :=
          (((List.filter_sublist _).map Prod.fst).nodup hgnd)
        obtain ⟨q, hq, hq2⟩ := dupStepCap_survivor hmnd hmne
        have hqg : q ∈ g := (List.mem_filter.mp hq).1
        have hqmain : q.2.main_graph = true := by simpa using (List.mem_filter.mp hq).2
        obtain ⟨hqe, hqs, hqt⟩ := hsub q hqg
        refine ⟨q.1, q.2, hqe, hqs, hqt, ?_⟩
        rw [List.mem_append]
        rintro (hmem | hmem)
        · obtain ⟨r, hr, hr1⟩ := List.mem_map.mp hmem
          have hrg := (List.mem_filter.mp hr).1
          have hrnm : ¬ r.2.main_graph = true := by simpa using (List.mem_filter.mp hr).2
          have hr2 : r.2 = q.2 :=
            fst_nodup_eq hgnd (show (q.1, r.2) ∈ g by rw [← hr1]; exact hrg) hqg
          rw [hr2] at hrnm
          exact hrnm hqmain
        · exact hq2 hmem
      · rw [if_neg h3]
        obtain ⟨q, hqg, hq2⟩ := dupStepCap_survivor hgnd (List.ne_nil_of_mem hig)
        obtain ⟨hqe, hqs, hqt⟩ := hsub q hqg
        exact ⟨q.1, q.2, hqe, hqs, hqt, hq2⟩

theorem dupIndices_unique (edges : List (Nat × EdgeP))
    (hcap : ∀ p ∈ edges, p.2.capacity.isSome) (hsp : ∀ p ∈ edges, (ttOf p.2).isSome)
    {i j : Nat} {e f : EdgeP} (hi : (i, e) ∈ edges) (hj : (j, f) ∈ edges) (hij : i ≠ j)
    (hs : f.source = e.source) (ht : f.target = e.target)
    (hir : i ∉ dupIndices edges e.source e.target)
    (hjr : j ∉ dupIndices edges e.source e.target) : False := by
  have hig : (i, e) ∈ stGroup edges e.source e.target := stGroup_mem.mpr ⟨hi, rfl, rfl⟩
  have hjg : (j, f) ∈ stGroup edges e.source e.target := stGroup_mem.mpr ⟨hj, hs, ht⟩
  have hcap' : ∀ p ∈ stGroup edges e.source e.target, p.2.capacity.isSome :=
    fun p hp => hcap p (stGroup_mem.mp hp).1
  have hsp' : ∀ p ∈ stGroup edges e.source e.target, (ttOf p.2).isSome :=
    fun p hp => hsp p (stGroup_mem.mp hp).1
  rw [dupIndices_def] at hir hjr
  set g := stGroup edges e.source e.target with hg
  have hlen : 1 < g.length :=
    two_mem_length_lt hig hjg (fun h => hij (congrArg Prod.fst h))
  have h1 : ¬ g.length ≤ 1 := by omega
  rw [if_neg h1] at hir hjr
  by_cases h2 : (g.filter (fun p => p.2.main_graph)).length == 1
  · rw [if_pos h2] at hir hjr
    have h2' : (g.filter (fun p => p.2.main_graph)).length = 1 := by simpa using h2
    have hemain : e.main_graph = true := by
      by_contra hne
      exact hir (List.mem_map_of_mem _ (List.mem_filter.mpr ⟨hig, by simpa using hne⟩))
    have hfmain : f.main_graph = true := by
      by_contra hne
      exact hjr (List.mem_map_of_mem _ (List.mem_filter.mpr ⟨hjg, by simpa using hne⟩))
    have hie : (i, e) ∈ g.filter (fun p => p.2.main_graph) :=
      List.mem_filter.mpr ⟨hig, by simpa using hemain⟩
    have hjf : (j, f) ∈ g.filter (fun p => p.2.main_graph) :=
      List.mem_filter.mpr ⟨hjg, by simpa using hfmain⟩
    obtain ⟨q, hq⟩ := List.length_eq_one.mp h2'
    rw [hq, List.mem_singleton] at hie hjf
    exact hij (congrArg Prod.fst (hie.trans hjf.symm))
  · rw [if_neg h2] at hir hjr
    by_cases h3 : 0 < (g.filter (fun p => p.2.main_graph)).length ∧
        0 < g.length - (g.filter (fun p => p.2.main_graph)).length
    · rw [if_pos h3] at hir hjr
      rw [List.mem_append] at hir hjr
      push_neg at hir hjr
      obtain ⟨hir1, hir2⟩ := hir
      obtain ⟨hjr1, hjr2⟩ := hjr
      have hemain : e.main_graph = true := by
        by_contra hne
        exact hir1 (List.mem_map_of_mem _ (List.mem_filter.mpr ⟨hig, by simpa using hne⟩))
      have hfmain : f.main_graph = true := by
        by_contra hne
        exact hjr1 (List.mem_map_of_mem _ (List.mem_filter.mpr ⟨hjg, by simpa using hne⟩))
      have hie : (i, e) ∈ g.filter (fun p => p.2.main_graph) :=
        List.mem_filter.mpr ⟨hig, by simpa using hemain⟩
      have hjf : (j, f) ∈ g.filter (fun p => p.2.main_graph) :=
        List.mem_filter.mpr ⟨hjg, by simpa using hfmain⟩
      exact dupStepCap_unique
        (fun p hp => hcap' p (List.mem_filter.mp hp).1)
        (fun p hp => hsp' p (List.mem_filter.mp hp).1)
        hie hjf hij hir2 hjr2
    · rw [if_neg h3] at hir hjr
      exact dupStepCap_unique hcap' hsp' hig hjg hij hir hjr

theorem dedupEdges_mem {edges : List (Nat × EdgeP)} {p : Nat × EdgeP} :
    p ∈ dedupEdges edges ↔
      p ∈ edges ∧ p.1 ∉ dupIndices edges p.2.source p.2.target := by
  unfold dedupEdges
  rw [List.mem_filter]
  constructor
  · rintro ⟨h1, h2⟩
    refine ⟨h1, ?_⟩
    simpa using h2
  · rintro ⟨h1, h2⟩
    refine ⟨h1, ?_⟩
    simpa using h2

theorem dedupEdges_pair_surv {edges : List (Nat × EdgeP)}
    (hnd : (edges.map Prod.fst).Nodup) {i : Nat} {e : EdgeP} (hi : (i, e) ∈ edges) :
    ∃ j f, (j, f) ∈ dedupEdges edges ∧ f.source = e.source ∧ f.target = e.target := by
  obtain ⟨j, f, hjf, hfs, hft, hnr⟩ := dupIndices_survivor edges hnd hi
  refine ⟨j, f, dedupEdges_mem.mpr ⟨hjf, ?_⟩, hfs, hft⟩
  show j ∉ dupIndices edges f.source f.target
  rw [hfs, hft]
  exact hnr

theorem exists_enum_of_mem {α : Type u} {l : List α} {a : α} (h : a ∈ l) :
    ∃ k, (k, a) ∈ l.enum := by
  obtain ⟨i, hi, hget⟩ := List.mem_iff_getElem.mp h
  refine ⟨i, List.mk_mem_enum_iff_getElem?.mpr ?_⟩
  rw [List.getElem?_eq_getElem hi, hget]

theorem snd_mem_of_mem_enum {α : Type u} {l : List α} {p : Nat × α} (h : p ∈ l.enum) :
    p.2 ∈ l := by
  have := List.mem_map_of_mem Prod.snd h
  rwa [List.enum_map_snd] at this

theorem sccKeep_eq_filter (edges0 : List Edge0) :
    sccKeep edges0 = edges0.enum.filter
      (fun p => p.2.source ∈ largestSCC (edges0.map (fun e => (e.source, e.target))) ∧
        p.2.target ∈ largestSCC (edges0.map (fun e => (e.source, e.target)))) := by
  unfold sccKeep
  dsimp only
  split
  · rfl
  · next hc =>
    rw [eq_comm, List.filter_eq_self]
    intro p hp
    have hCV : largestSCC (edges0.map (fun e => (e.source, e.target))) =
        (verticesList (edges0.map (fun e => (e.source, e.target)))).toFinset := by
      apply Finset.eq_of_subset_of_card_le (largestSCC_subset _)
      omega
    have hmem : (p.2.source, p.2.target) ∈ edges0.map (fun e => (e.source, e.target)) :=
      List.mem_map_of_mem _ (snd_mem_of_mem_enum hp)
    have hv := mem_verticesList hmem
    rw [hCV]
    simp only [List.mem_toFinset]
    exact decide_eq_true ⟨hv.1, hv.2⟩

theorem flagEdge_source (contains : List (Q × Q) → Bool) (e : Edge0) :
    (flagEdge contains e).source = e.source := rfl

theorem flagEdge_target (contains : List (Q × Q) → Bool) (e : Edge0) :
    (flagEdge contains e).target = e.target := rfl

theorem flagged_map_fst (contains : List (Q × Q) → Bool) (l : List (Nat × Edge0)) :
    ((l.map (fun p => (p.1, flagEdge contains p.2))).map Prod.fst) = l.map Prod.fst := by
  induction l with
  | nil => rfl
  | cons q l ih => simp only [List.map_cons, ih]

theorem sccKeep_fst_nodup (edges0 : List Edge0) : ((sccKeep edges0).map Prod.fst).Nodup := by
  rw [sccKeep_eq_filter]
  refine ((List.filter_sublist _).map Prod.fst).nodup ?_
  rw [List.enum_map_fst]
  exact List.nodup_range _

theorem pp_mem_flag {contains : List (Q × Q) → Bool} {edges0 : List Edge0} {e : EdgeP}
    (he : e ∈ post_process contains edges0) :
    ∃ i e0, (i, e0) ∈ sccKeep edges0 ∧ e = flagEdge contains e0 := by
  obtain ⟨p, hp, hpe⟩ := List.mem_map.mp he
  have hpf := (dedupEdges_mem.mp hp).1
  obtain ⟨q, hq, hqe⟩ := List.mem_map.mp hpf
  refine ⟨q.1, q.2, hq, ?_⟩
  rw [← hpe, ← hqe]

theorem pp_endpoints_in_scc {contains : List (Q × Q) → Bool} {edges0 : List Edge0}
    {e : EdgeP} (he : e ∈ post_process contains edges0) :
    e.source ∈ largestSCC (edges0.map (fun x => (x.source, x.target))) ∧
      e.target ∈ largestSCC (edges0.map (fun x => (x.source, x.target))) := by
  obtain ⟨i, e0, hk, rfl⟩ := pp_mem_flag he
  rw [sccKeep_eq_filter] at hk
  have h2 := of_decide_eq_true (List.mem_filter.mp hk).2
  exact h2

theorem pp_step_of_filtered {contains : List (Q × Q) → Bool} {edges0 : List Edge0}
    {a b : Nat}
    (hab : (a, b) ∈ (edges0.map (fun x => (x.source, x.target))).filter
      (fun p => decide (p.1 ∈ largestSCC (edges0.map (fun x => (x.source, x.target)))) &&
        decide (p.2 ∈ largestSCC (edges0.map (fun x => (x.source, x.target)))))) :
    ∃ f ∈ post_process contains edges0, f.source = a ∧ f.target = b := by
  obtain ⟨hmem, hC⟩ := List.mem_filter.mp hab
  rw [Bool.and_eq_true, decide_eq_true_eq, decide_eq_true_eq] at hC
  obtain ⟨e0, he0, heq⟩ := List.mem_map.mp hmem
  obtain ⟨hsa, htb⟩ := Prod.mk.injEq _ _ _ _ |>.mp heq.symm
  obtain ⟨k, hk⟩ := exists_enum_of_mem he0
  have hkeep : (k, e0) ∈ sccKeep edges0 := by
    rw [sccKeep_eq_filter]
    refine List.mem_filter.mpr ⟨hk, decide_eq_true ?_⟩
    show e0.source ∈ _ ∧ e0.target ∈ _
    rw [← hsa, ← htb]
    exact hC
  have hflag : (k, flagEdge contains e0) ∈
      (sccKeep edges0).map (fun p => (p.1, flagEdge contains p.2)) :=
    List.mem_map_of_mem _ hkeep
  have hfnd : (((sccKeep edges0).map
      (fun p => (p.1, flagEdge contains p.2))).map Prod.fst).Nodup := by
    rw [flagged_map_fst]
    exact sccKeep_fst_nodup edges0
  obtain ⟨j, f, hjf, hfs, hft⟩ := dedupEdges_pair_surv hfnd hflag
  refine ⟨f, List.mem_map_of_mem _ hjf, ?_, ?_⟩
  · rw [hfs, flagEdge_source, hsa]
  · rw [hft, flagEdge_target, htb]

/-- Claim C1: the directed graph induced by the final canonical edge table
is strongly connected: every ordered pair of vertices referenced by final
edges is connected by a directed path of final edges, even though the
duplicate resolver removes further edges after the connectivity filter. -/
theorem C1_final_table_strongly_connected (contains : List (Q × Q) → Bool)
    (edges0 : List Edge0) {u v : Nat}
    (hu : ∃ e ∈ post_process contains edges0, e.source = u ∨ e.target = u)
    (hv : ∃ e ∈ post_process contains edges0, e.source = v ∨ e.target = v) :
    Reach ((post_process contains edges0).map (fun e => (e.source, e.target))) u v := by
  obtain ⟨eu, heu, hueq⟩ := hu
  obtain ⟨ev, hev, hveq⟩ := hv
  have huC : u ∈ largestSCC (edges0.map (fun x => (x.source, x.target))) := by
    rcases hueq with rfl | rfl
    · exact (pp_endpoints_in_scc heu).1
    · exact (pp_endpoints_in_scc heu).2
  have hvC : v ∈ largestSCC (edges0.map (fun x => (x.source, x.target))) := by
    rcases hveq with rfl | rfl
    · exact (pp_endpoints_in_scc hev).1
    · exact (pp_endpoints_in_scc hev).2
  rcases largestSCC_cases (edges0.map (fun x => (x.source, x.target))) with hemp | ⟨r, hr⟩
  · rw [hemp] at huC
    exact absurd huC (Finset.not_mem_empty u)
  · have hre := scc_confine (edges0.map (fun x => (x.source, x.target))) r
      (hr ▸ huC) (hr ▸ hvC)
    have hmono : ∀ a b : Nat,
        StepE ((edges0.map (fun x => (x.source, x.target))).filter
          (fun p =>
            decide (p.1 ∈ sccOf (edges0.map (fun x => (x.source, x.target))) r) &&
            decide (p.2 ∈ sccOf (edges0.map (fun x => (x.source, x.target))) r))) a b →
        StepE ((post_process contains edges0).map (fun e => (e.source, e.target))) a b := by
      intro a b hab
      rw [← hr] at hab
      obtain ⟨f, hf, hfs, hft⟩ := @pp_step_of_filtered contains edges0 a b hab
      show (a, b) ∈ _
      rw [← hfs, ← hft]
      exact List.mem_map_of_mem _ hf
    exact Relation.ReflTransGen.mono hmono hre

/-- Witness for C1 at a concrete two-edge cycle. -/
theorem C1_witness :
    (∃ e ∈ post_process emptyRegion [egCyc1, egCyc2], e.source = 0 ∨ e.target = 0) ∧
    (∃ e ∈ post_process emptyRegion [egCyc1, egCyc2], e.source = 1 ∨ e.target = 1) ∧
    Reach ((post_process emptyRegion [egCyc1, egCyc2]).map (fun e => (e.source, e.target)))
      0 1 :=
  ⟨by decide, by decide,
    C1_final_table_strongly_connected emptyRegion [egCyc1, egCyc2] (by decide) (by decide)⟩

/-- Counterexample for C3: on a bidirectional way with `maxspeed=50` and
`maxspeed:forward=70` (no backward tag), the backward edge's speed is 70 —
the value altered by the forward direction-specific tag — not the
undirected value 50 the claim requires. -/
theorem C3_counterexample :
    (((runEdgeReader distZero (runNodeReader [wFwd70]).nodes [wFwd70]).edges.map
      (fun e => e.speed)).getD 1 none = some 70) ∧
    ¬ (((runEdgeReader distZero (runNodeReader [wFwd70]).nodes [wFwd70]).edges.map
      (fun e => e.speed)).getD 1 none = some 50) :=
  ⟨by decide, by decide⟩

/-- Counterexample for C4: with `lanes:forward=abc` (malformed) and
`lanes=4` on a bidirectional residential way, the claim predicts the
forward lane count 4 / 2 = 2 from the next source in the chain, but the
code falls through to the road-class default 1: both parses share one
try-block, so the failure skips the half-total-lanes source. -/
theorem C4_counterexample :
    (resolveLanes exTags4 false "residential").1 = 1 ∧
    ¬ (resolveLanes exTags4 false "residential").1 = 2 :=
  ⟨by decide, by decide⟩

/-- Claim C4 (amended): a malformed direction-specific lane tag on a
bidirectional way falls directly to the road-class default, skipping the
half-total-lanes source; the failure is never fatal. -/
theorem C4_amended_malformed_forward_lanes (tags : Tags) (rt : String)
    (hf : pyInt (tagsGet tags "lanes:forward" "0") = none) :
    (resolveLanes tags false rt).1 = defaultLanesOf rt := by
  simp [resolveLanes, hf]

/-- Witness for the amended C4. -/
theorem C4_witness :
    pyInt (tagsGet exTags4 "lanes:forward" "0") = none ∧
    (resolveLanes exTags4 false "residential").1 = defaultLanesOf "residential" :=
  ⟨by decide, C4_amended_malformed_forward_lanes exTags4 "residential" (by decide)⟩

/-- Claim C6: in a duplicate group with exactly one main-graph row, a row
survives the duplicate resolver exactly when it is that main-graph row,
regardless of capacities and travel times. -/
theorem C6_single_main_graph_wins (edges : List (Nat × EdgeP)) (s t : Nat)
    (hnd : (edges.map Prod.fst).Nodup)
    (hone : ((stGroup edges s t).filter (fun p => p.2.main_graph)).length = 1) :
    ∀ p ∈ stGroup edges s t,
      (p.1 ∉ dupIndices edges s t ↔ p.2.main_graph = true) := by
  intro p hp
  by_cases hlen : (stGroup edges s t).length ≤ 1
  · rw [dupIndices_def, if_pos hlen]
    constructor
    · intro _
      have hg1 : (stGroup edges s t).length = 1 := by
        have := List.length_pos_of_mem hp
        omega
      obtain ⟨q, hq⟩ := List.length_eq_one.mp hg1
      rw [hq] at hone hp
      rw [List.mem_singleton] at hp
      by_cases hm : q.2.main_graph
      · rw [hp]
        exact hm
      · rw [List.filter_cons_of_neg (by simpa using hm), List.filter_nil] at hone
        cases hone
    · intro _
      exact List.not_mem_nil _
  · have hone' : ((stGroup edges s t).filter (fun p => p.2.main_graph)).length == 1 := by
      simpa using hone
    rw [dupIndices_def, if_neg hlen, if_pos hone']
    have hgnd : ((stGroup edges s t).map Prod.fst).Nodup :=
      ((List.filter_sublist _).map Prod.fst).nodup hnd
    constructor
    · intro hsur
      by_contra hnm
      exact hsur (List.mem_map_of_mem _ (List.mem_filter.mpr ⟨hp, by simpa using hnm⟩))
    · intro hm hmem
      obtain ⟨r, hr, hr1⟩ := List.mem_map.mp hmem
      have hrg := (List.mem_filter.mp hr).1
      have hrnm : ¬ r.2.main_graph = true := by simpa using (List.mem_filter.mp hr).2
      have hr2 : r.2 = p.2 :=
        fst_nodup_eq hgnd (show (p.1, r.2) ∈ stGroup edges s t by rw [← hr1]; exact hrg) hp
      rw [hr2] at hrnm
      exact hrnm hm

/-- Witness for C6 at the spec's example: main-graph capacity 800 beats
non-main capacity 2000. -/
theorem C6_witness :
    (dupPairC6.map Prod.fst).Nodup ∧
    ((stGroup dupPairC6 0 1).filter (fun p => p.2.main_graph)).length = 1 ∧
    ((0, epMain).1 ∉ dupIndices dupPairC6 0 1 ↔ (0, epMain).2.main_graph = true) ∧
    ((1, epSec).1 ∉ dupIndices dupPairC6 0 1 ↔ (1, epSec).2.main_graph = true) :=
  ⟨by decide, by decide,
    C6_single_main_graph_wins dupPairC6 0 1 (by decide) (by decide) (0, epMain) (by decide),
    C6_single_main_graph_wins dupPairC6 0 1 (by decide) (by decide) (1, epSec) (by decide)⟩

/-- Counterexample for C7: a single valid way that visits its interior
point twice selects that interior point (3 vertices), although only one
valid way touches it and the claim predicts exactly 2 vertices. -/
theorem C7_counterexample :
    (runNodeReader [wRevisit]).nodes.length = 3 ∧
    ¬ (runNodeReader [wRevisit]).nodes.length = 2 :=
  ⟨by decide, by decide⟩

theorem refMem_refInsert {l : List Nat} {r r' : Nat} :
    refMem (refInsert l r) r' = true ↔ refMem l r' = true ∨ r' = r := by
  unfold refMem refInsert
  split
  · next h =>
    constructor
    · exact fun h' => Or.inl h'
    · rintro (h' | rfl)
      · exact h'
      · exact h
  · constructor
    · intro h'
      have hm : r' ∈ l ++ [r] := by simpa using h'
      rcases List.mem_append.mp hm with h2 | h2
      · exact Or.inl (by simpa using h2)
      · exact Or.inr (by simpa using h2)
    · rintro (h' | rfl)
      · have hm : r' ∈ l := by simpa using h'
        simpa using List.mem_append_left [r] hm
      · simp

theorem interiors_no_select (l : List OsmNode) (st : NodeReaderState)
    (hfresh : ∀ n ∈ l, refMem st.all_nodes n.ref = false)
    (hnd : (l.map (fun n => n.ref)).Nodup) :
    (l.foldl
      (fun st n =>
        let st := if refMem st.all_nodes n.ref then add_node st n else st
        { st with all_nodes := refInsert st.all_nodes n.ref })
      st).nodes = st.nodes := by
  induction l generalizing st with
  | nil => rfl
  | cons n l ih =>
    rw [List.foldl_cons]
    have hn := hfresh n (List.mem_cons_self _ _)
    rw [List.map_cons, List.nodup_cons] at hnd
    have hstep : (let st2 := if refMem st.all_nodes n.ref then add_node st n else st
        { st2 with all_nodes := refInsert st2.all_nodes n.ref }) =
        { st with all_nodes := refInsert st.all_nodes n.ref } := by
      simp [hn]
    rw [hstep, ih]
    · intro m hm
      have h1 : refMem st.all_nodes m.ref = false := hfresh m (List.mem_cons_of_mem _ hm)
      have h2 : m.ref ≠ n.ref := fun he => hnd.1 (he ▸ List.mem_map_of_mem _ hm)
      cases h3 : refMem (refInsert st.all_nodes n.ref) m.ref
      · rfl
      · rcases refMem_refInsert.mp h3 with h4 | h4
        · rw [h1] at h4
          cases h4
        · exact absurd h4 h2
    · exact hnd.2

theorem handle_way_eq (st : NodeReaderState) (wid : Nat) (n0 nl : OsmNode)
    (mid : List OsmNode) (wtags : Tags) :
    handle_way st ⟨wid, n0 :: (mid ++ [nl]), wtags⟩ =
      mid.foldl
        (fun st n =>
          let st := if refMem st.all_nodes n.ref then add_node st n else st
          { st with all_nodes := refInsert st.all_nodes n.ref })
        (let st1 := add_node st n0
         let st2 := add_node st1 nl
         let st3 := { st2 with all_nodes := refInsert st2.all_nodes n0.ref }
         { st3 with all_nodes := refInsert st3.all_nodes nl.ref }) := by
  unfold handle_way
  have hh : (n0 :: (mid ++ [nl])).head? = some n0 := rfl
  have hl : (n0 :: (mid ++ [nl])).getLast? = some nl := by
    rw [← List.cons_append]
    exact List.getLast?_concat _
  show (match (n0 :: (mid ++ [nl])).head?, (n0 :: (mid ++ [nl])).getLast? with
    | some n0, some nl => _
    | _, _ => st) = _
  rw [hh, hl]
  have hint : ((n0 :: (mid ++ [nl])).drop 1).dropLast = mid := by
    rw [List.drop_one, List.tail_cons, List.dropLast_concat]
  dsimp only
  rw [hint]
  have hgl : (n0 :: (mid ++ [nl])).getLast (List.cons_ne_nil _ _) = nl := by
    have h2 := List.getLast?_eq_getLast (n0 :: (mid ++ [nl])) (List.cons_ne_nil _ _)
    rw [hl] at h2
    exact ((Option.some.injEq _ _).mp h2).symm
  simp only [hgl]

theorem add_node_all_nodes (st : NodeReaderState) (n : OsmNode) :
    (add_node st n).all_nodes = st.all_nodes := by
  unfold add_node
  by_cases h1 : (st.nodes.any fun v => v.osm_id == n.ref) = true
  · rw [if_pos h1]
  · rw [if_neg h1]
    by_cases h2 : n.valid = true
    · rw [if_pos h2]
    · rw [if_neg h2]

/-- Claim C7 (amended): an interior point is selected on its *second
encounter* counting every encounter across valid ways — including a
repeat within a single way and coincidence with an endpoint; a single
isolated valid way whose points are pairwise distinct (with valid
coordinates) therefore yields exactly 2 vertices. -/
theorem C7_amended_distinct_isolated_way (w : Way)
    (hv : valid_way w = true)
    (hnd : (w.nodes.map (fun n => n.ref)).Nodup)
    (hval : ∀ n ∈ w.nodes, n.valid = true) :
    (runNodeReader [w]).nodes.length = 2 := by
  have hrun : runNodeReader [w] = handle_way { all_nodes := [], nodes := [], counter := 0 } w := by
    unfold runNodeReader nodeReaderWay
    rw [List.foldl_cons, List.foldl_nil, if_pos hv]
  rw [hrun]
  obtain ⟨wid, wnodes, wtags⟩ := w
  have hlen : 1 < wnodes.length := by
    unfold valid_way at hv
    simp only [Bool.and_eq_true, decide_eq_true_eq] at hv
    exact hv.1.2
  rcases wnodes with _ | ⟨n0, rest⟩
  · simp at hlen
  rcases List.eq_nil_or_concat rest with rfl | ⟨mid, nl, rfl⟩
  · simp at hlen
  rw [List.concat_eq_append] at hnd hval ⊢
  rw [handle_way_eq]
  simp only [List.map_cons, List.map_append, List.map_cons, List.map_nil,
    List.nodup_cons, List.nodup_append] at hnd
  obtain ⟨hn0, hmidnd, _, hdisj⟩ := hnd
  have hne0l : n0.ref ≠ nl.ref := by
    intro he
    exact hn0 (by rw [he]; exact List.mem_append_right _ (by simp))
  have hv0 : n0.valid = true := hval n0 (by simp)
  have hvl : nl.valid = true := hval nl (by simp)
  have hbase1 : (add_node (⟨[], [], 0⟩ : NodeReaderState) n0).nodes =
      [⟨0, n0.ref, n0.lon, n0.lat⟩] ∧
      (add_node (⟨[], [], 0⟩ : NodeReaderState) n0).counter = 1 := by
    constructor <;> simp [add_node, hv0]
  set st1 := add_node (⟨[], [], 0⟩ : NodeReaderState) n0 with hst1
  have hbase2 : (add_node st1 nl).nodes.length = 2 := by
    have hany : st1.nodes.any (fun v => v.osm_id == nl.ref) = false := by
      rw [hbase1.1]
      simp [hne0l]
    simp [add_node, hany, hvl, hbase1.1, hne0l]
  rw [interiors_no_select]
  · exact hbase2
  · intro m hm
    have hmn0 : m.ref ≠ n0.ref := by
      intro he
      exact hn0 (by rw [← he]; exact List.mem_append_left _ (List.mem_map_of_mem _ hm))
    have hmnl : m.ref ≠ nl.ref := by
      intro he
      have := hdisj (List.mem_map_of_mem (fun n => n.ref) hm)
      simp at this
      exact this he
    have hall : (add_node st1 nl).all_nodes = st1.all_nodes := add_node_all_nodes _ _
    have hall1 : st1.all_nodes = [] := by
      rw [hst1]
      exact add_node_all_nodes _ _
    cases h3 : refMem (refInsert (refInsert (add_node st1 nl).all_nodes n0.ref) nl.ref) m.ref
    · rfl
    · rcases refMem_refInsert.mp h3 with h4 | h4
      · rcases refMem_refInsert.mp h4 with h5 | h5
        · rw [hall, hall1] at h5
          cases h5
        · exact absurd h5 hmn0
      · exact absurd h4 hmnl
  · exact hmidnd

/-- Witness for the amended C7 at a concrete isolated four-point way. -/
theorem C7_witness :
    valid_way wIso = true ∧ (wIso.nodes.map (fun n => n.ref)).Nodup ∧
    (∀ n ∈ wIso.nodes, n.valid = true) ∧ (runNodeReader [wIso]).nodes.length = 2 :=
  ⟨by decide, by decide, by decide,
    C7_amended_distinct_isolated_way wIso (by decide) (by decide) (by decide)⟩

theorem PairedBy_append {R : Edge0 → Edge0 → Prop} {l : List Edge0} (hl : PairedBy R l)
    {a b : Edge0} (hab : R a b) : PairedBy R (l ++ [a, b]) := by
  induction hl with
  | nil => exact PairedBy.cons hab PairedBy.nil
  | cons hxy _ ih => exact PairedBy.cons hxy ih

theorem foldl_add_edge_paired (dist : (Q × Q) → (Q × Q) → Q) (w : Way) (nm : String)
    (rt : Nat) (l1 l2 : Int) (s1 s2 : Option Q) (cap : Option Nat)
    (sps : List (Nat × Nat)) (st : EdgeReaderState)
    (h : PairedBy (fwdBackPair (l1, l2)) st.edges) :
    PairedBy (fwdBackPair (l1, l2))
      ((sps.foldl (fun st p => add_edge dist st w p.1 p.2 false nm rt l1 l2 s1 s2 cap)
        st).edges) := by
  induction sps generalizing st with
  | nil => exact h
  | cons q sps ih =>
    rw [List.foldl_cons]
    apply ih
    unfold add_edge
    dsimp only
    split
    · exact h
    · rw [if_neg Bool.false_ne_true]
      exact PairedBy_append h ⟨rfl, rfl, rfl, rfl, rfl⟩

theorem add_way_paired (dist : (Q × Q) → (Q × Q) → Q) (st : EdgeReaderState) (w : Way)
    (honeway : onewayOf w.tags = false)
    (h : PairedBy (fwdBackPair (resolveLanes w.tags false ((tagsFind w.tags "highway").getD "")))
      st.edges) :
    PairedBy (fwdBackPair (resolveLanes w.tags false ((tagsFind w.tags "highway").getD "")))
      ((add_way dist st w).edges) := by
  unfold add_way
  split
  · exact h
  · dsimp only
    rw [honeway]
    split
    · exact h
    · exact foldl_add_edge_paired dist w _ _ _ _ _ _ _ _ _ h

/-- Claim C8: a valid bidirectional way tagged `lanes:forward=2` and
`lanes:backward=1` yields edges in forward/backward twin pairs: the
forward edge has 2 lanes and its backward twin — with source and target
swapped — has 1 lane and the identical length. -/
theorem C8_forward_backward_lanes (dist : (Q × Q) → (Q × Q) → Q) (nodes : List Vertex)
    (c : Nat) (w : Way)
    (hfw : tagsGet w.tags "lanes:forward" "0" = "2")
    (hbw : tagsGet w.tags "lanes:backward" "0" = "1")
    (honeway : onewayOf w.tags = false) :
    PairedBy (fwdBackPair (2, 1))
      ((add_way dist { nodes := nodes, edges := [], counter := c } w).edges) := by
  have hlanes : ∀ rt, resolveLanes w.tags false rt = (2, 1) := by
    intro rt
    have h2 : pyInt "2" = some 2 := by decide
    have h1 : pyInt "1" = some 1 := by decide
    have h20 : ((2 : Int) == 0) = false := by decide
    have h10 : ((1 : Int) == 0) = false := by decide
    have hm2 : max (2 : Int) 1 = 2 := by decide
    have hm1 : max (1 : Int) 1 = 1 := by decide
    simp [resolveLanes, hfw, hbw, h2, h1, h20, h10, hm2, hm1]
  have hp := add_way_paired dist ⟨nodes, [], c⟩ w honeway
    (by rw [hlanes]; exact PairedBy.nil)
  rw [hlanes] at hp
  exact hp

/-- Witness for C8 at a concrete bidirectional way. -/
theorem C8_witness :
    tagsGet wLanes.tags "lanes:forward" "0" = "2" ∧
    tagsGet wLanes.tags "lanes:backward" "0" = "1" ∧
    onewayOf wLanes.tags = false ∧
    PairedBy (fwdBackPair (2, 1))
      ((add_way distZero
        { nodes := (runNodeReader [wLanes]).nodes, edges := [], counter := 0 }
        wLanes).edges) :=
  ⟨by decide, by decide, by decide,
    C8_forward_backward_lanes distZero (runNodeReader [wLanes]).nodes 0 wLanes
      (by decide) (by decide) (by decide)⟩

theorem add_edge_mem {dist : (Q × Q) → (Q × Q) → Q} {st : EdgeReaderState} {w : Way}
    {s t : Nat} {ow : Bool} {nm : String} {rt : Nat} {ln bl : Int} {sp bsp : Option Q}
    {cap : Option Nat} {e : Edge0}
    (he : e ∈ (add_edge dist st w s t ow nm rt ln bl sp bsp cap).edges) :
    e ∈ st.edges ∨
      (e.road_type = rt ∧ e.capacity = cap ∧ (e.speed = sp ∨ e.speed = bsp) ∧
        ∃ coords, e.length = segmentLength dist coords) := by
  unfold add_edge at he
  dsimp only at he
  split at he
  · exact Or.inl he
  · split at he
    · rw [List.mem_append] at he
      rcases he with he | he
      · exact Or.inl he
      · rw [List.mem_singleton] at he
        subst he
        exact Or.inr ⟨rfl, rfl, Or.inl rfl, _, rfl⟩
    · rw [List.mem_append] at he
      rcases he with he | he
      · exact Or.inl he
      · rcases List.mem_cons.mp he with rfl | he
        · exact Or.inr ⟨rfl, rfl, Or.inl rfl, _, rfl⟩
        · rw [List.mem_singleton] at he
          subst he
          exact Or.inr ⟨rfl, rfl, Or.inr rfl, _, rfl⟩

theorem foldl_add_edge_mem {dist : (Q × Q) → (Q × Q) → Q} {w : Way} {ow : Bool}
    {nm : String} {rt : Nat} {ln bl : Int} {sp bsp : Option Q} {cap : Option Nat} :
    ∀ (sps : List (Nat × Nat)) (st : EdgeReaderState) {e : Edge0},
      e ∈ ((sps.foldl (fun st p => add_edge dist st w p.1 p.2 ow nm rt ln bl sp bsp cap)
        st).edges) →
      e ∈ st.edges ∨
        (e.road_type = rt ∧ e.capacity = cap ∧ (e.speed = sp ∨ e.speed = bsp) ∧
          ∃ coords, e.length = segmentLength dist coords) := by
  intro sps
  induction sps with
  | nil => exact fun st e he => Or.inl he
  | cons q sps ih =>
    intro st e he
    rw [List.foldl_cons] at he
    rcases ih _ he with he2 | hp
    · exact add_edge_mem he2
    · exact Or.inr hp

theorem add_way_mem {dist : (Q × Q) → (Q × Q) → Q} {st : EdgeReaderState} {w : Way}
    {e : Edge0} (he : e ∈ (add_way dist st w).edges) :
    e ∈ st.edges ∨
      (valid_way w = true ∧
        e.road_type = roadTypeId ((tagsFind w.tags "highway").getD "") ∧
        e.capacity = capacityOf ((tagsFind w.tags "highway").getD "") ∧
        (e.speed = (resolveSpeeds w.tags (onewayOf w.tags)).1 ∨
         e.speed = (resolveSpeeds w.tags (onewayOf w.tags)).2) ∧
        ∃ coords, e.length = segmentLength dist coords) := by
  unfold add_way at he
  split at he
  · exact Or.inl he
  · next hnv =>
    have hv : valid_way w = true := by
      by_contra hc
      exact hnv (by simpa using hc)
    dsimp only at he
    split at he
    · exact Or.inl he
    · rcases foldl_add_edge_mem _ _ he with he2 | hp
      · exact Or.inl he2
      · exact Or.inr ⟨hv, hp.1, hp.2.1, hp.2.2.1, hp.2.2.2⟩

theorem runEdgeReader_mem {dist : (Q × Q) → (Q × Q) → Q} {nodes : List Vertex}
    {ways : List Way} {e : Edge0} (he : e ∈ (runEdgeReader dist nodes ways).edges) :
    ∃ w ∈ ways, valid_way w = true ∧
      e.road_type = roadTypeId ((tagsFind w.tags "highway").getD "") ∧
      e.capacity = capacityOf ((tagsFind w.tags "highway").getD "") ∧
      (e.speed = (resolveSpeeds w.tags (onewayOf w.tags)).1 ∨
       e.speed = (resolveSpeeds w.tags (onewayOf w.tags)).2) ∧
      ∃ coords, e.length = segmentLength dist coords := by
  unfold runEdgeReader at he
  have haux : ∀ (ws : List Way) (st : EdgeReaderState),
      e ∈ ((ws.foldl (add_way dist) st).edges) →
      e ∈ st.edges ∨ ∃ w ∈ ws, valid_way w = true ∧
        e.road_type = roadTypeId ((tagsFind w.tags "highway").getD "") ∧
        e.capacity = capacityOf ((tagsFind w.tags "highway").getD "") ∧
        (e.speed = (resolveSpeeds w.tags (onewayOf w.tags)).1 ∨
         e.speed = (resolveSpeeds w.tags (onewayOf w.tags)).2) ∧
        ∃ coords, e.length = segmentLength dist coords := by
    intro ws
    induction ws with
    | nil => exact fun st he2 => Or.inl he2
    | cons w ws ih =>
      intro st he2
      rw [List.foldl_cons] at he2
      rcases ih _ he2 with he3 | ⟨w', hw', hp⟩
      · rcases add_way_mem he3 with he4 | hp
        · exact Or.inl he4
        · exact Or.inr ⟨w, List.mem_cons_self _ _, hp⟩
      · exact Or.inr ⟨w', List.mem_cons_of_mem _ hw', hp⟩
  rcases haux ways _ he with h | h
  · cases h
  · exact h

theorem valid_way_highway {w : Way} (hv : valid_way w = true) :
    ∃ h, tagsFind w.tags "highway" = some h ∧ h ∈ VALID_HIGHWAYS := by
  unfold valid_way at hv
  simp only [Bool.and_eq_true] at hv
  obtain ⟨_, hh⟩ := hv
  cases hfind : tagsFind w.tags "highway" with
  | none => rw [hfind] at hh; cases hh
  | some h =>
    rw [hfind] at hh
    exact ⟨h, rfl, by simpa using hh⟩

theorem valid_highway_tables {h : String} (hh : h ∈ VALID_HIGHWAYS) :
    (capacityOf h).isSome = true ∧ (urbanSpeedOfId (roadTypeId h)).isSome = true ∧
      (ruralSpeedOfId (roadTypeId h)).isSome = true := by
  have hall : ∀ x ∈ VALID_HIGHWAYS, (capacityOf x).isSome = true ∧
      (urbanSpeedOfId (roadTypeId x)).isSome = true ∧
      (ruralSpeedOfId (roadTypeId x)).isSome = true := by decide
  exact hall h hh

theorem flagEdge_speed_isSome {contains : List (Q × Q) → Bool} {e : Edge0}
    (hu : (urbanSpeedOfId e.road_type).isSome = true)
    (hr : (ruralSpeedOfId e.road_type).isSome = true) :
    ((flagEdge contains e).speed).isSome = true := by
  show (imputeSpeed (contains e.geometry) e.road_type e.speed).isSome = true
  unfold imputeSpeed
  cases hs : e.speed with
  | none =>
    simp only [Option.isNone_none, if_true]
    cases contains e.geometry
    · simpa using hr
    · simpa using hu
  | some q => simp

theorem ttOf_isSome {e : EdgeP} (h : e.speed.isSome = true) : (ttOf e).isSome = true := by
  unfold ttOf
  obtain ⟨q, hq⟩ := Option.isSome_iff_exists.mp h
  rw [hq]
  rfl

theorem flagEdge_capacity (contains : List (Q × Q) → Bool) (e : Edge0) :
    (flagEdge contains e).capacity = e.capacity := rfl

theorem flagEdge_road_type (contains : List (Q × Q) → Bool) (e : Edge0) :
    (flagEdge contains e).road_type = e.road_type := rfl

theorem pipeline_flagged_good (dist : (Q × Q) → (Q × Q) → Q)
    (contains : List (Q × Q) → Bool) (ways : List Way) :
    ∀ p ∈ ((sccKeep ((runEdgeReader dist (runNodeReader ways).nodes ways).edges)).map
      (fun p => (p.1, flagEdge contains p.2))),
      p.2.capacity.isSome = true ∧ (ttOf p.2).isSome = true := by
  intro p hp
  obtain ⟨q, hq, hqe⟩ := List.mem_map.mp hp
  have hq0 : q.2 ∈ (runEdgeReader dist (runNodeReader ways).nodes ways).edges := by
    rw [sccKeep_eq_filter] at hq
    exact snd_mem_of_mem_enum (List.mem_of_mem_filter hq)
  obtain ⟨w, _, hv, hrt, hcap, _, _⟩ := runEdgeReader_mem hq0
  obtain ⟨h, hfind, hmem⟩ := valid_way_highway hv
  obtain ⟨hc, hu, hr⟩ := valid_highway_tables hmem
  have hp2 : p.2 = flagEdge contains q.2 := by rw [← hqe]
  rw [hfind] at hrt hcap
  constructor
  · rw [hp2, flagEdge_capacity, hcap]
    exact hc
  · rw [hp2]
    refine ttOf_isSome ?_
    refine flagEdge_speed_isSome ?_ ?_
    · rw [hrt]
      exact hu
    · rw [hrt]
      exact hr

/-- Claim C2: after the duplicate resolver runs, no two edges of the final
table share the same ordered (source, target) pair. -/
theorem C2_no_duplicate_pairs (dist : (Q × Q) → (Q × Q) → Q)
    (contains : List (Q × Q) → Bool) (ways : List Way) :
    (run_pipeline dist contains ways).Pairwise
      (fun e f => ¬ (e.source = f.source ∧ e.target = f.target)) := by
  have hgood := pipeline_flagged_good dist contains ways
  unfold run_pipeline post_process
  dsimp only
  rw [List.pairwise_map]
  have hnd : (((sccKeep ((runEdgeReader dist (runNodeReader ways).nodes ways).edges)).map
      (fun p => (p.1, flagEdge contains p.2))).map Prod.fst).Nodup := by
    rw [flagged_map_fst]
    exact sccKeep_fst_nodup _
  have hndM : ((dedupEdges ((sccKeep
      ((runEdgeReader dist (runNodeReader ways).nodes ways).edges)).map
      (fun p => (p.1, flagEdge contains p.2)))).map Prod.fst).Nodup :=
    ((List.filter_sublist _).map Prod.fst).nodup hnd
  have hpw := List.pairwise_map.mp hndM
  refine List.Pairwise.imp_of_mem ?_ hpw
  intro p q hp hq hne hsame
  have hp' := dedupEdges_mem.mp hp
  have hq' := dedupEdges_mem.mp hq
  have hq2 := hq'.2
  rw [← hsame.1, ← hsame.2] at hq2
  exact dupIndices_unique _
    (fun r hr => (hgood r hr).1) (fun r hr => (hgood r hr).2)
    hp'.1 hq'.1 hne hsame.1.symm hsame.2.symm hp'.2 hq2

theorem Q_le_zero_iff {x : Q} : (0 : Q) ≤ x ↔ 0 ≤ x.num := by
  show Q.le ⟨0, 1⟩ x ↔ _
  unfold Q.le
  simp

theorem Q_lt_zero_iff {x : Q} : (0 : Q) < x ↔ 0 < x.num := by
  show Q.lt ⟨0, 1⟩ x ↔ _
  unfold Q.lt
  simp

theorem Q_add_nonneg {a b : Q} (ha : (0 : Q) ≤ a) (hb : (0 : Q) ≤ b) :
    (0 : Q) ≤ a + b := by
  rw [Q_le_zero_iff] at ha hb ⊢
  show 0 ≤ (Q.add a b).num
  exact add_nonneg (mul_nonneg ha (Int.natCast_nonneg _))
    (mul_nonneg hb (Int.natCast_nonneg _))

theorem Q_mul_nonneg {a b : Q} (ha : (0 : Q) ≤ a) (hb : (0 : Q) ≤ b) :
    (0 : Q) ≤ a * b := by
  rw [Q_le_zero_iff] at ha hb ⊢
  show 0 ≤ a.num * b.num
  exact mul_nonneg ha hb

theorem segmentLength_nonneg (dist : (Q × Q) → (Q × Q) → Q)
    (hd : ∀ a b, (0 : Q) ≤ dist a b) (coords : List (Q × Q)) :
    (0 : Q) ≤ segmentLength dist coords := by
  unfold segmentLength
  refine Q_mul_nonneg ?_ (by decide)
  have haux : ∀ (l : List ((Q × Q) × (Q × Q))) (acc : Q), (0 : Q) ≤ acc →
      (0 : Q) ≤ l.foldl (fun acc p => acc + dist p.1 p.2) acc := by
    intro l
    induction l with
    | nil => exact fun acc h => h
    | cons p l ih => exact fun acc h => ih _ (Q_add_nonneg h (hd _ _))
  exact haux _ 0 (by decide)

theorem sccKeep_snd_mem {edges0 : List Edge0} {p : Nat × Edge0}
    (hp : p ∈ sccKeep edges0) : p.2 ∈ edges0 := by
  rw [sccKeep_eq_filter] at hp
  exact snd_mem_of_mem_enum (List.mem_of_mem_filter hp)

theorem valid_highway_speeds_pos {h : String} (hh : h ∈ VALID_HIGHWAYS) :
    optPosB (urbanSpeedOfId (roadTypeId h)) = true ∧
    optPosB (ruralSpeedOfId (roadTypeId h)) = true := by
  have hall : ∀ x ∈ VALID_HIGHWAYS, optPosB (urbanSpeedOfId (roadTypeId x)) = true ∧
      optPosB (ruralSpeedOfId (roadTypeId x)) = true := by decide
  exact hall h hh

theorem flagEdge_speed_pos {contains : List (Q × Q) → Bool} {e : Edge0}
    (hin : optPosB e.speed = true)
    (hu : (urbanSpeedOfId e.road_type).isSome = true)
    (hupos : optPosB (urbanSpeedOfId e.road_type) = true)
    (hr : (ruralSpeedOfId e.road_type).isSome = true)
    (hrpos : optPosB (ruralSpeedOfId e.road_type) = true) :
    ∃ q, (flagEdge contains e).speed = some q ∧ (0 : Q) < q := by
  show ∃ q, imputeSpeed (contains e.geometry) e.road_type e.speed = some q ∧ _
  unfold imputeSpeed
  cases hs : e.speed with
  | none =>
    simp only [Option.isNone_none, if_true]
    cases contains e.geometry with
    | false =>
      simp only [Bool.false_eq_true, if_false]
      obtain ⟨q, hq⟩ := Option.isSome_iff_exists.mp hr
      refine ⟨q, hq, ?_⟩
      rw [hq] at hrpos
      exact of_decide_eq_true hrpos
    | true =>
      simp only [if_true]
      obtain ⟨q, hq⟩ := Option.isSome_iff_exists.mp hu
      refine ⟨q, hq, ?_⟩
      rw [hq] at hupos
      exact of_decide_eq_true hupos
  | some q =>
    simp only [Option.isNone_some, Bool.false_eq_true, if_false]
    refine ⟨q, rfl, ?_⟩
    rw [hs] at hin
    exact of_decide_eq_true hin

/-- Counterexample for C5: on a valid bidirectional way tagged
`maxspeed=0` the final table carries edges with speed exactly 0: the
tag-derived zero is not missing, so the speed imputer leaves it in place
and the claimed invariant speed > 0 fails. -/
theorem C5_counterexample :
    ¬ ∀ e ∈ run_pipeline distZero emptyRegion [wMax0],
        ∃ q, e.speed = some q ∧ (0 : Q) < q := by
  intro h
  have hz : ∃ e ∈ run_pipeline distZero emptyRegion [wMax0], e.speed = some (0 : Q) := by
    decide
  obtain ⟨e, he, hsp⟩ := hz
  obtain ⟨q, hq, hpos⟩ := h e he
  rw [hsp] at hq
  injection hq with hq1
  rw [← hq1] at hpos
  exact absurd hpos (by decide)

/-- Claim C5 (amended): every final edge has `length ≥ 0` (the geodesic
distance being nonnegative), and `speed > 0` provided every tag-derived
speed of the input ways is positive; a way whose maxspeed tags resolve to
0 or a negative number defeats the invariant (see the counterexample). -/
theorem C5_amended_speed_length (dist : (Q × Q) → (Q × Q) → Q)
    (contains : List (Q × Q) → Bool) (ways : List Way)
    (hd : ∀ a b, (0 : Q) ≤ dist a b)
    (hsp : ∀ w ∈ ways, optPosB (resolveSpeeds w.tags (onewayOf w.tags)).1 = true ∧
      optPosB (resolveSpeeds w.tags (onewayOf w.tags)).2 = true) :
    ∀ e ∈ run_pipeline dist contains ways,
      (∃ q, e.speed = some q ∧ (0 : Q) < q) ∧ (0 : Q) ≤ e.length := by
  intro e he
  unfold run_pipeline at he
  obtain ⟨i, e0, hk, rfl⟩ := pp_mem_flag he
  have he0 : e0 ∈ (runEdgeReader dist (runNodeReader ways).nodes ways).edges :=
    sccKeep_snd_mem hk
  obtain ⟨w, hw, hv, hrt, _, hspd, coords, hlen⟩ := runEdgeReader_mem he0
  obtain ⟨h, hfind, hmem⟩ := valid_way_highway hv
  obtain ⟨_, hu, hr⟩ := valid_highway_tables hmem
  obtain ⟨hupos, hrpos⟩ := valid_highway_speeds_pos hmem
  rw [hfind] at hrt
  constructor
  · refine flagEdge_speed_pos ?_ ?_ ?_ ?_ ?_
    · rcases hspd with hs1 | hs2
      · rw [hs1]
        exact (hsp w hw).1
      · rw [hs2]
        exact (hsp w hw).2
    · rw [hrt]
      exact hu
    · rw [hrt]
      exact hupos
    · rw [hrt]
      exact hr
    · rw [hrt]
      exact hrpos
  · rw [show (flagEdge contains e0).length = e0.length from rfl, hlen]
    exact segmentLength_nonneg dist hd coords

/-- Witness for the amended C5 at a concrete run. -/
theorem C5_witness :
    (∃ q, ((run_pipeline distZero emptyRegion [wGood]).headD dummyEP).speed = some q ∧
      (0 : Q) < q) ∧
    (0 : Q) ≤ ((run_pipeline distZero emptyRegion [wGood]).headD dummyEP).length :=
  C5_amended_speed_length distZero emptyRegion [wGood]
    (fun _ _ => Q_le_zero_iff.mpr (le_refl 0)) (by decide)
    ((run_pipeline distZero emptyRegion [wGood]).headD dummyEP) (by decide)

/-- Claim C9: when no polygon record qualifies as urban the pipeline does
not fail: the urban region is the empty region, every containment query
evaluates to not-urban, and every edge whose speed is still unresolved
resolves against the rural default table for its road type. -/
theorem C9_empty_region_rural_defaults (areas : List Area) (edges0 : List Edge0)
    (_hq : collectUrbanAreas areas = []) :
    (∀ g, emptyRegion g = false) ∧
    ∀ e ∈ post_process emptyRegion edges0, e.urban = false ∧
      ∃ e0 ∈ edges0, e.road_type = e0.road_type ∧
        e.speed = (if e0.speed.isNone then ruralSpeedOfId e0.road_type else e0.speed) := by
  refine ⟨fun _ => rfl, ?_⟩
  intro e he
  obtain ⟨i, e0, hk, rfl⟩ := pp_mem_flag he
  have he0 : e0 ∈ edges0 := sccKeep_snd_mem hk
  refine ⟨rfl, e0, he0, rfl, ?_⟩
  show imputeSpeed (emptyRegion e0.geometry) e0.road_type e0.speed = _
  unfold imputeSpeed emptyRegion
  simp

/-- Witness for C9: a non-urban polygon stream and a concrete two-edge
cycle whose unresolved speed resolves to the rural default. -/
theorem C9_witness :
    collectUrbanAreas [arGrass] = [] ∧
    (∀ g, emptyRegion g = false) ∧
    ((post_process emptyRegion [egCyc1, egCyc2]).headD dummyEP ∈
      post_process emptyRegion [egCyc1, egCyc2]) ∧
    (((post_process emptyRegion [egCyc1, egCyc2]).headD dummyEP).urban = false ∧
      ∃ e0 ∈ [egCyc1, egCyc2],
        ((post_process emptyRegion [egCyc1, egCyc2]).headD dummyEP).road_type =
          e0.road_type ∧
        ((post_process emptyRegion [egCyc1, egCyc2]).headD dummyEP).speed =
          (if e0.speed.isNone then ruralSpeedOfId e0.road_type else e0.speed)) :=
  ⟨by decide,
    (C9_empty_region_rural_defaults [arGrass] [egCyc1, egCyc2] (by decide)).1,
    by decide,
    (C9_empty_region_rural_defaults [arGrass] [egCyc1, egCyc2] (by decide)).2
      ((post_process emptyRegion [egCyc1, egCyc2]).headD dummyEP) (by decide)⟩

/-- Claim C10: every valid highway class has a defined capacity, so the
capacity lookup never yields the missing value for any edge the reader
emits — the output schema's null capacity case is unreachable. -/
theorem C10_capacity_never_null (dist : (Q × Q) → (Q × Q) → Q)
    (st : EdgeReaderState) (w : Way)
    (hst : ∀ e ∈ st.edges, e.capacity.isSome = true) :
    (∀ h ∈ VALID_HIGHWAYS, (capacityOf h).isSome = true) ∧
    ∀ e ∈ (add_way dist st w).edges, e.capacity.isSome = true := by
  constructor
  · intro h hh
    exact (valid_highway_tables hh).1
  · intro e he
    rcases add_way_mem he with he2 | ⟨hv, _, hcap, _, _⟩
    · exact hst e he2
    · obtain ⟨h, hfind, hmem⟩ := valid_way_highway hv
      rw [hcap, hfind]
      exact (valid_highway_tables hmem).1

/-- Witness for C10 at a concrete way. -/
theorem C10_witness :
    (∀ e ∈ (⟨(runNodeReader [wGood]).nodes, [], 0⟩ : EdgeReaderState).edges,
      e.capacity.isSome = true) ∧
    (capacityOf "motorway").isSome = true ∧
    (((add_way distZero ⟨(runNodeReader [wGood]).nodes, [], 0⟩ wGood).edges.headD
      dummyE0).capacity).isSome = true :=
  ⟨by decide,
    (C10_capacity_never_null distZero ⟨(runNodeReader [wGood]).nodes, [], 0⟩ wGood
      (by decide)).1 "motorway" (by decide),
    (C10_capacity_never_null distZero ⟨(runNodeReader [wGood]).nodes, [], 0⟩ wGood
      (by decide)).2
      ((add_way distZero ⟨(runNodeReader [wGood]).nodes, [], 0⟩ wGood).edges.headD dummyE0)
      (by decide)⟩

theorem resolveSpeeds_backward_zero (tags : Tags) {x : Q}
    (hb : pyFloat (tagsGet tags "maxspeed:backward" "0") = some x)
    (hx : Q.valEq x 0 = true) :
    (resolveSpeeds tags false).2 = (resolveSpeeds tags false).1 := by
  simp [resolveSpeeds, hb, hx]

/-- Claim C3 (amended): on a non-oneway way whose backward maxspeed tag is
absent or parses to the value zero, the backward edge's speed inherits the
*currently resolved* forward speed — which is the undirected maxspeed
value only when no non-zero forward direction-specific override applies;
every edge the way emits carries that forward-resolved speed. -/
theorem C3_amended_backward_speed (dist : (Q × Q) → (Q × Q) → Q)
    (st : EdgeReaderState) (w : Way)
    (honeway : onewayOf w.tags = false) {x : Q}
    (hb : pyFloat (tagsGet w.tags "maxspeed:backward" "0") = some x)
    (hx : Q.valEq x 0 = true) :
    ∀ e ∈ (add_way dist st w).edges,
      e ∈ st.edges ∨ e.speed = (resolveSpeeds w.tags false).1 := by
  intro e he
  rcases add_way_mem he with h | ⟨_, _, _, hspd, _⟩
  · exact Or.inl h
  · rw [honeway] at hspd
    rcases hspd with h | h
    · exact Or.inr h
    · rw [resolveSpeeds_backward_zero w.tags hb hx] at h
      exact Or.inr h

/-- Witness for the amended C3. -/
theorem C3_witness :
    onewayOf wFwd70.tags = false ∧
    pyFloat (tagsGet wFwd70.tags "maxspeed:backward" "0") = some (0 : Q) ∧
    Q.valEq (0 : Q) 0 = true ∧
    (((add_way distZero ⟨(runNodeReader [wFwd70]).nodes, [], 0⟩ wFwd70).edges.headD
        dummyE0) ∈ (⟨(runNodeReader [wFwd70]).nodes, [], 0⟩ : EdgeReaderState).edges ∨
      ((add_way distZero ⟨(runNodeReader [wFwd70]).nodes, [], 0⟩ wFwd70).edges.headD
        dummyE0).speed = (resolveSpeeds wFwd70.tags false).1) :=
  ⟨by decide, by decide, by decide,
    @C3_amended_backward_speed distZero ⟨(runNodeReader [wFwd70]).nodes, [], 0⟩ wFwd70
      (by decide) 0 (by decide) (by decide)
      ((add_way distZero ⟨(runNodeReader [wFwd70]).nodes, [], 0⟩ wFwd70).edges.headD
        dummyE0) (by decide)⟩
